import Mathlib

/-!
# Verification of the rustune core

Shallow embedding of the rustune fortune engine:

* `src/datfile.rs` — the STRFILE index codec (`DatFile::to_bytes`,
  `DatFile::read_from_bytes`), corpus access (`FortuneFile::span`,
  `FortuneFile::record_bytes`, `FortuneFile::find_delimiter_start`,
  `FortuneFile::delimiter_trimmed_end`, `FortuneFile::validate_offsets`).
* `src/strfile_builder.rs` — build-side segmentation (`parse_record_spans`)
  and index construction (`build_dat_from_text`).
* `src/rng.rs` — the `FortuneRng` number source.
* `src/fortune_engine.rs` — probability computation and the weighted draw.

Byte buffers are `List Nat` (each entry a byte value `< 256`); `u32`/`u64`/
`usize` values are `Nat` with explicit `% 2 ^ 32` / bounds where the Rust
code converts or could wrap.  Fallible functions return `Except String`
carrying the source error messages.  Loops are embedded as fuel-indexed
structural recursions; every wrapper supplies fuel `input.length + 1`,
which is sufficient because each iteration strictly advances the cursor.

`f64` arithmetic is modeled exactly: a finite binary64 value is the
rational it denotes, and every operation rounds its exact rational result
to 53 significand bits (round to nearest, ties to even, gradual underflow
below `2 ^ (-1022)`).  The development never produces values outside the
finite range, and NaN inputs are outside the model.
-/

set_option maxRecDepth 8000

namespace Rustune

/-! ## Binary index codec (`src/datfile.rs`) -/

/-- `STRFILE_VERSION` from `datfile.rs`. -/
def STRFILE_VERSION : Nat := 2

/-- `HEADER_BYTES` from `datfile.rs`. -/
def HEADER_BYTES : Nat := 24

/-- `DatHeader` from `datfile.rs`; all `u32` fields are `Nat` values `< 2^32`,
`delim` is a byte. -/
structure DatHeader where
  version : Nat
  numstr : Nat
  longlen : Nat
  shortlen : Nat
  flags : Nat
  delim : Nat
deriving DecidableEq, Repr

/-- `DatFile` from `datfile.rs`. -/
structure DatFile where
  header : DatHeader
  offsets : List Nat
deriving DecidableEq, Repr

/-- Big-endian bytes of a `u32` value (`u32::to_be_bytes`); faithful for
`n < 2^32`. -/
def u32be (n : Nat) : List Nat :=
  [n / 2 ^ 24 % 256, n / 2 ^ 16 % 256, n / 2 ^ 8 % 256, n % 256]

/-- `u32::from_be_bytes` (`be_u32` in `datfile.rs`). -/
def beU32 (b0 b1 b2 b3 : Nat) : Nat :=
  ((b0 * 256 + b1) * 256 + b2) * 256 + b3

/-- `usize::checked_mul` on a 64-bit target. -/
def checked_mul (a b : Nat) : Option Nat :=
  if a * b < 2 ^ 64 then some (a * b) else none

/-- `usize::checked_add` on a 64-bit target. -/
def checked_add (a b : Nat) : Option Nat :=
  if a + b < 2 ^ 64 then some (a + b) else none

/-- `DatFile::to_bytes`.  The `self.offsets.len() as u32` comparison keeps
the wrap-around of the Rust `as u32` cast (`% 2^32`), although the
preceding guard makes it exact. -/
def DatFile.to_bytes (d : DatFile) : Except String (List Nat) :=
  if 2 ^ 32 - 1 < d.offsets.length then
    .error "too many offsets for STRFILE u32"
  else if d.header.numstr ≠ d.offsets.length % 2 ^ 32 then
    .error "header numstr does not match offset count"
  else
    .ok (u32be d.header.version ++ u32be d.header.numstr ++
      u32be d.header.longlen ++ u32be d.header.shortlen ++
      u32be d.header.flags ++ [d.header.delim] ++ [0, 0, 0] ++
      (d.offsets.map u32be).flatten)

/-- The offset table read loop of `DatFile::read_from_bytes`
(`chunks_exact(4)` over `bytes[24 .. 24 + 4*numstr]`). -/
def readOffsets (bytes : List Nat) : Nat → Nat → List Nat
  | _, 0 => []
  | pos, count + 1 =>
    beU32 (bytes.getD pos 0) (bytes.getD (pos + 1) 0)
        (bytes.getD (pos + 2) 0) (bytes.getD (pos + 3) 0) ::
      readOffsets bytes (pos + 4) count

/-- `DatFile::read_from_bytes`.  The Rust `let` bindings for the six
header fields are inlined (`numstr` is the big-endian `u32` at offset
4). -/
def DatFile.read_from_bytes (bytes : List Nat) : Except String DatFile :=
  if bytes.length < HEADER_BYTES then
    .error "dat file shorter than header"
  else
    match checked_mul
        (beU32 (bytes.getD 4 0) (bytes.getD 5 0) (bytes.getD 6 0) (bytes.getD 7 0)) 4 with
    | none => .error "offset table size overflow"
    | some expected_offsets_bytes =>
      match checked_add HEADER_BYTES expected_offsets_bytes with
      | none => .error "dat size overflow"
      | some expected_total =>
        if bytes.length < expected_total then
          .error "dat file missing offset entries"
        else
          .ok { header :=
                { version :=
                    beU32 (bytes.getD 0 0) (bytes.getD 1 0) (bytes.getD 2 0) (bytes.getD 3 0),
                  numstr :=
                    beU32 (bytes.getD 4 0) (bytes.getD 5 0) (bytes.getD 6 0) (bytes.getD 7 0),
                  longlen :=
                    beU32 (bytes.getD 8 0) (bytes.getD 9 0) (bytes.getD 10 0) (bytes.getD 11 0),
                  shortlen :=
                    beU32 (bytes.getD 12 0) (bytes.getD 13 0) (bytes.getD 14 0)
                      (bytes.getD 15 0),
                  flags :=
                    beU32 (bytes.getD 16 0) (bytes.getD 17 0) (bytes.getD 18 0)
                      (bytes.getD 19 0),
                  delim := bytes.getD 20 0 },
                offsets := readOffsets bytes HEADER_BYTES
                  (beU32 (bytes.getD 4 0) (bytes.getD 5 0) (bytes.getD 6 0) (bytes.getD 7 0)) }

/-! ## Record segmentation (`src/strfile_builder.rs`, `src/datfile.rs`) -/

/-- `RecordSpan` from `datfile.rs` (`end` is `stop` here: `end` is reserved
in Lean). -/
structure RecordSpan where
  start : Nat
  stop : Nat
deriving DecidableEq, Repr

/-- `slice.iter().position(|b| *b == b'\n')`. -/
def posOfNL : List Nat → Option Nat
  | [] => none
  | b :: rest => if b = 10 then some 0 else (posOfNL rest).map (· + 1)

/-- Absolute position of the first `\n` at index `≥ cursor` and `< bound`,
or `bound` when there is none: models
`bytes[cursor..bound].iter().position(..).map(|rel| cursor + rel).unwrap_or(bound)`. -/
def lineEnd (input : List Nat) (cursor bound : Nat) : Nat :=
  match posOfNL ((input.drop cursor).take (bound - cursor)) with
  | some rel => cursor + rel
  | none => bound

/-- The shared carriage-return strip of the delimiter-line test:
`if content_end > cursor && bytes[content_end - 1] == b'\r' { content_end -= 1 }`. -/
def contentEnd (input : List Nat) (cursor le : Nat) : Nat :=
  if cursor < le ∧ input.getD (le - 1) 0 = 13 then le - 1 else le

/-- Loop of `FortuneFile::find_delimiter_start` (read-side scan), with
explicit fuel. -/
def find_delimiter_start_from (input : List Nat) (delim : Nat) :
    Nat → Nat → Option Nat
  | 0, _ => none
  | fuel + 1, cursor =>
    if cursor < input.length then
      let le := lineEnd input cursor input.length
      let ce := contentEnd input cursor le
      if ce = cursor + 1 ∧ input.getD cursor 0 = delim then
        some cursor
      else
        find_delimiter_start_from input delim fuel
          (if le < input.length then le + 1 else le)
    else
      none

/-- `FortuneFile::find_delimiter_start` started at `start`. -/
def find_delimiter_start (input : List Nat) (delim start : Nat) : Option Nat :=
  find_delimiter_start_from input delim (input.length + 1) start

/-- Loop of `FortuneFile::delimiter_trimmed_end`, with explicit fuel. -/
def delimiter_trimmed_end_from (input : List Nat) (delim bound_end : Nat) :
    Nat → Nat → Nat
  | 0, _ => bound_end
  | fuel + 1, cursor =>
    if cursor < bound_end then
      let le := lineEnd input cursor bound_end
      let ce := contentEnd input cursor le
      if ce = cursor + 1 ∧ input.getD cursor 0 = delim then
        cursor
      else
        delimiter_trimmed_end_from input delim bound_end fuel
          (if le < bound_end then le + 1 else le)
    else
      bound_end

/-- `FortuneFile::delimiter_trimmed_end`. -/
def delimiter_trimmed_end (input : List Nat) (delim start bound_end : Nat) : Nat :=
  delimiter_trimmed_end_from input delim bound_end (input.length + 1) start

/-- Loop of `parse_record_spans` (`strfile_builder.rs`), with explicit
fuel.  The build side tests `content_end - cursor == 1` (`Nat`
subtraction) where the read side tests `content_end == cursor + 1`. -/
def parse_record_spans_from (input : List Nat) (delimiter : Nat)
    (allow_empty : Bool) : Nat → Nat → Nat → List RecordSpan
  | 0, _, start =>
    if allow_empty || decide (start < input.length) then
      [⟨start, input.length⟩]
    else []
  | fuel + 1, cursor, start =>
    if cursor < input.length then
      let le := lineEnd input cursor input.length
      let ce := contentEnd input cursor le
      let next := if le < input.length then le + 1 else le
      if ce - cursor = 1 ∧ input.getD cursor 0 = delimiter then
        (if allow_empty || decide (start < cursor) then
          [(⟨start, cursor⟩ : RecordSpan)]
        else []) ++
          parse_record_spans_from input delimiter allow_empty fuel next next
      else
        parse_record_spans_from input delimiter allow_empty fuel next start
    else
      if allow_empty || decide (start < input.length) then
        [⟨start, input.length⟩]
      else []

/-- `parse_record_spans` from `strfile_builder.rs`. -/
def parse_record_spans (input : List Nat) (delimiter : Nat)
    (allow_empty : Bool) : List RecordSpan :=
  parse_record_spans_from input delimiter allow_empty (input.length + 1) 0 0

/-! ## Exact model of binary64 (`f64`) arithmetic

A finite `f64` value is modeled exactly, as a dyadic rational
`m * 2 ^ e` held in canonical form, and each Rust `f64` operation is the
corresponding exact rational operation followed by rounding to 53
significand bits: round to nearest, ties to even, with gradual underflow
below `2 ^ (-1022)` — the IEEE 754 `binary64` semantics Rust specifies
for `f64`.  The values arising in this development never reach the
overflow range, and NaN inputs are outside the model.  IEEE comparisons
on finite values coincide with the exact rational order, which
`F64.lt` / `F64.le` compute on aligned significands.  All arithmetic is
on `Nat` / `Int`, so the kernel can evaluate every operation. -/

/-- A finite binary64 value `m * 2 ^ e`.  Canonical form (maintained by
`roundRat`): zero is `⟨0, 0⟩`; otherwise `2 ^ 52 ≤ |m| < 2 ^ 53` with
`-1074 ≤ e` (normal), or `|m| < 2 ^ 52` with `e = -1074` (subnormal). -/
structure F64 where
  m : Int
  e : Int
deriving DecidableEq, Repr

/-- Fuel-based binary logarithm (structural, so the kernel can evaluate
it); `log2fuel n n` is `⌊log2 n⌋` for `1 ≤ n`. -/
def log2fuel : Nat → Nat → Nat
  | 0, _ => 0
  | f + 1, n => if n < 2 then 0 else log2fuel f (n / 2) + 1

/-- Fuel-based search for the smallest `k` with `d ≤ a * 2 ^ k`; the fuel
`d` used below suffices for `1 ≤ a`. -/
def clog2fuel : Nat → Nat → Nat → Nat
  | 0, _, _ => 0
  | f + 1, a, d => if d ≤ a then 0 else clog2fuel f (a * 2) d + 1

/-- Round `N / D` (with `0 < D`) to the nearest integer, ties to even. -/
def rneNat (N D : Nat) : Nat :=
  if 2 * (N % D) < D then N / D
  else if D < 2 * (N % D) then N / D + 1
  else if N / D % 2 = 0 then N / D else N / D + 1

/-- Round the positive rational `a / d` (`1 ≤ a`, `1 ≤ d`) to the nearest
binary64 value.  `e` is `⌊log2 (a / d)⌋`, clamped at `-1022` for gradual
underflow; the significand is `a / d` in units of `2 ^ (e - 52)`, rounded
to nearest, ties to even, renormalized when rounding carries to
`2 ^ 53`. -/
def roundPosRat (a d : Nat) : F64 :=
  let e : Int := if d ≤ a then (log2fuel (a / d) (a / d) : Int) else -(clog2fuel d a d : Int)
  let shift : Int := max e (-1022) - 52
  let N := if 0 ≤ shift then a else a * 2 ^ (-shift).toNat
  let D := if 0 ≤ shift then d * 2 ^ shift.toNat else d
  let mant := rneNat N D
  if mant = 0 then ⟨0, 0⟩
  else if mant = 2 ^ 53 then ⟨2 ^ 52, shift + 1⟩
  else ⟨mant, shift⟩

/-- Round the rational `n / d` to the nearest binary64 value (`d ≠ 0` in
every use; division by zero is outside the model). -/
def roundRat (n d : Int) : F64 :=
  if n = 0 ∨ d = 0 then ⟨0, 0⟩
  else if (0 < n) = (0 < d) then roundPosRat n.natAbs d.natAbs
  else ⟨-(roundPosRat n.natAbs d.natAbs).m, (roundPosRat n.natAbs d.natAbs).e⟩

/-- Round the dyadic rational `N * 2 ^ E` to the nearest binary64 value. -/
def roundDyadic (N E : Int) : F64 :=
  if 0 ≤ E then roundRat (N * 2 ^ E.toNat) 1 else roundRat N (2 ^ (-E).toNat)

namespace F64

/-- The binary64 value of a small integer (exact for `|n| ≤ 2 ^ 53`). -/
def ofInt (n : Int) : F64 := roundRat n 1

/-- The IEEE `<` comparison on finite values: the exact order, computed
on significands aligned to the smaller exponent. -/
def lt (x y : F64) : Prop :=
  x.m * 2 ^ (x.e - min x.e y.e).toNat < y.m * 2 ^ (y.e - min x.e y.e).toNat

/-- The IEEE `≤` comparison on finite values. -/
def le (x y : F64) : Prop :=
  x.m * 2 ^ (x.e - min x.e y.e).toNat ≤ y.m * 2 ^ (y.e - min x.e y.e).toNat

instance instDecLt (x y : F64) : Decidable (F64.lt x y) := by
  unfold F64.lt; infer_instance

instance instDecLe (x y : F64) : Decidable (F64.le x y) := by
  unfold F64.le; infer_instance

/-- Rust `f64` addition. -/
def add (x y : F64) : F64 :=
  roundDyadic (x.m * 2 ^ (x.e - min x.e y.e).toNat + y.m * 2 ^ (y.e - min x.e y.e).toNat)
    (min x.e y.e)

/-- Rust `f64` subtraction. -/
def sub (x y : F64) : F64 :=
  roundDyadic (x.m * 2 ^ (x.e - min x.e y.e).toNat - y.m * 2 ^ (y.e - min x.e y.e).toNat)
    (min x.e y.e)

/-- Rust `f64` multiplication. -/
def mul (x y : F64) : F64 := roundDyadic (x.m * y.m) (x.e + y.e)

/-- Rust `f64` division (divisors in this development are nonzero). -/
def div (x y : F64) : F64 :=
  if 0 ≤ x.e - y.e then roundRat (x.m * 2 ^ (x.e - y.e).toNat) y.m
  else roundRat x.m (y.m * 2 ^ (y.e - x.e).toNat)

/-- Rust `f64::max` on finite values. -/
def fmax (x y : F64) : F64 := if F64.lt x y then y else x

/-- The binary64 zero (`0.0`). -/
def zero : F64 := ⟨0, 0⟩

/-- The exact rational value of a finite binary64 datum (specification
side only; never used in computations). -/
def toRat (x : F64) : ℚ :=
  if 0 ≤ x.e then (x.m : ℚ) * 2 ^ x.e.toNat else (x.m : ℚ) / 2 ^ (-x.e).toNat

end F64

/-- Rust `u64 as f64` / `usize as f64` cast (round to nearest, ties to
even — the semantics of Rust `as` for int-to-float casts). -/
def natToF64 (n : Nat) : F64 := roundRat n 1

/-- `iter().sum::<f64>()`: left fold of `f64` addition starting at `0.0`. -/
def fsum (l : List F64) : F64 := l.foldl F64.add F64.zero

/-- `f64::EPSILON` (`2 ^ (-52)`). -/
def epsF64 : F64 := roundRat 1 (2 ^ 52)

example : natToF64 3 = ⟨3 * 2 ^ 51, -51⟩ := by decide
example : F64.div (natToF64 3) (natToF64 5) = ⟨5404319552844595, -53⟩ := by decide
example : F64.mul (F64.ofInt 100) (F64.div (natToF64 3) (natToF64 5)) = F64.ofInt 60 := by
  decide
example : F64.mul (F64.ofInt 100) (F64.div (natToF64 2) (natToF64 5)) = F64.ofInt 40 := by
  decide
example : F64.add (F64.ofInt 100) epsF64 = F64.ofInt 100 := by decide
example : natToF64 (2 ^ 64 - 1) = ⟨2 ^ 52, 12⟩ := by decide
example : F64.add (natToF64 (2 ^ 64 - 1)) (F64.ofInt 1) = ⟨2 ^ 52, 12⟩ := by decide
example :
    F64.div (natToF64 (2 ^ 64 - 1)) (F64.add (natToF64 (2 ^ 64 - 1)) (F64.ofInt 1)) =
      F64.ofInt 1 := by decide
example :
    F64.add (F64.div (natToF64 1) (natToF64 10)) (F64.div (natToF64 2) (natToF64 10)) ≠
      F64.div (natToF64 3) (natToF64 10) := by decide

/-! ## The number source (`src/rng.rs`) -/

/-- `Mode` from `rng.rs`.  `HardCoded` is embedded in full.  The `Seeded`
and `Thread` variants both draw `u64` values from the external `rand`
crate; they are modeled as an oracle stream of draws together with a
position. -/
inductive Mode where
  | hardCoded (values : List Nat) (index : Nat)
  | externalDraws (stream : Nat → Nat) (pos : Nat)

/-- `FortuneRng` from `rng.rs`. -/
structure FortuneRng where
  mode : Mode

/-- `FortuneRng::next_u64`.  In `HardCoded` mode the source reads
`values[index % values.len()]` and increments `index`; `from_env`
guarantees `values` is nonempty (`parse_hardcoded_values` rejects an
empty list), which the `getD` default covers. -/
def FortuneRng.next_u64 : FortuneRng → Nat × FortuneRng
  | ⟨.hardCoded values index⟩ =>
    (values.getD (index % values.length) 0, ⟨.hardCoded values (index + 1)⟩)
  | ⟨.externalDraws s p⟩ => (s p % 2 ^ 64, ⟨.externalDraws s (p + 1)⟩)

/-- The number of `next_u64` draws a state has consumed (specification
side): the hard-coded cursor, or the oracle stream position. -/
def FortuneRng.draws : FortuneRng → Nat
  | ⟨.hardCoded _ index⟩ => index
  | ⟨.externalDraws _ pos⟩ => pos

/-- `FortuneRng::next_index`. -/
def FortuneRng.next_index (r : FortuneRng) (upper : Nat) : Nat × FortuneRng :=
  if upper = 0 then (0, r)
  else
    let vr := r.next_u64
    (vr.1 % upper, vr.2)

/-- `FortuneRng::next_unit_f64`: `(raw as f64) / ((u64::MAX as f64) + 1.0)`. -/
def FortuneRng.next_unit_f64 (r : FortuneRng) : F64 × FortuneRng :=
  let vr := r.next_u64
  (F64.div (natToF64 vr.1) (F64.add (natToF64 (2 ^ 64 - 1)) (F64.ofInt 1)), vr.2)

/-! ## Corpus access (`FortuneFile`, `src/datfile.rs`)

The `text_path` / `dat_path` fields and the file reads of
`FortuneFile::open` are filesystem concerns outside the model; the
in-memory state is the decoded index plus the corpus bytes. -/

/-- `FortuneFile` from `datfile.rs` (paths dropped). -/
structure FortuneFile where
  dat : DatFile
  bytes : List Nat
deriving DecidableEq, Repr

instance : Inhabited FortuneFile := ⟨⟨⟨⟨0, 0, 0, 0, 0, 0⟩, []⟩, []⟩⟩

/-- `FortuneFile::validate_offsets` (the Rust error message interpolates
the offending offset; the model keeps a fixed message). -/
def FortuneFile.validate_offsets (ff : FortuneFile) : Except String Unit :=
  if ff.dat.offsets.any (fun o => ff.bytes.length < o) then
    .error "offset is out of range"
  else .ok ()

/-- `FortuneFile::record_count`. -/
def FortuneFile.record_count (ff : FortuneFile) : Nat :=
  ff.dat.offsets.length

/-- `FortuneFile::span`.  The Rust code binds
`end = find_delimiter_start(start).unwrap_or(bytes.len())` once; it is
inlined here. -/
def FortuneFile.span (ff : FortuneFile) (index : Nat) : Except String RecordSpan :=
  match ff.dat.offsets.get? index with
  | none => .error "record index out of range"
  | some start =>
    if start >
        (find_delimiter_start ff.bytes ff.dat.header.delim start).getD ff.bytes.length ∨
        (find_delimiter_start ff.bytes ff.dat.header.delim start).getD ff.bytes.length >
          ff.bytes.length then
      .error "invalid record span"
    else
      .ok ⟨start,
        (find_delimiter_start ff.bytes ff.dat.header.delim start).getD ff.bytes.length⟩

/-- `FortuneFile::record_bytes`: the slice
`bytes[span.start .. delimiter_trimmed_end(span.start, span.end)]`. -/
def FortuneFile.record_bytes (ff : FortuneFile) (index : Nat) : Except String (List Nat) :=
  match ff.span index with
  | .error e => .error e
  | .ok s =>
    .ok ((ff.bytes.drop s.start).take
      (delimiter_trimmed_end ff.bytes ff.dat.header.delim s.start s.stop - s.start))

/-! ## Selection engine (`src/fortune_engine.rs`) -/

/-- `LoadedSource` from `fortune_engine.rs`. -/
structure LoadedSource where
  db : FortuneFile
  explicit_percent : Option F64
  candidate_indices : List Nat

instance : Inhabited LoadedSource := ⟨⟨default, none, []⟩⟩

/-- `FortuneSelection` from `fortune_engine.rs`; the model returns the
chosen entry's position in place of its path, and the raw record bytes in
place of the UTF-8-lossy string (`record_text_lossy` only re-encodes the
bytes of `record_bytes`, propagating its error). -/
structure FortuneSelection where
  source_idx : Nat
  record_index : Nat
  text : List Nat
deriving DecidableEq, Repr

/-- The `specified_total` local of `calculate_probabilities`:
`entries.iter().filter_map(|e| e.explicit_percent).sum()`. -/
def specified_total (entries : List LoadedSource) : F64 :=
  fsum (entries.filterMap (·.explicit_percent))

/-- The `remaining` local of `calculate_probabilities`:
`(100.0 - specified_total).max(0.0)`. -/
def remaining (entries : List LoadedSource) : F64 :=
  F64.fmax (F64.sub (F64.ofInt 100) (specified_total entries)) F64.zero

/-- The `base_weights` local of `calculate_probabilities`. -/
def base_weights (entries : List LoadedSource) (equal_prob : Bool) : List F64 :=
  entries.map (fun e =>
    if e.explicit_percent.isSome then F64.zero
    else if equal_prob then F64.ofInt 1
    else natToF64 e.candidate_indices.length)

/-- The `total_base` local of `calculate_probabilities`. -/
def total_base (entries : List LoadedSource) (equal_prob : Bool) : F64 :=
  fsum (base_weights entries equal_prob)

/-- The `probs` vector built by `calculate_probabilities`: explicit
percent if present, else `remaining * (base_weight / total_base)` when
`total_base > 0.0` else `0.0`, each clamped by `.max(0.0)`. -/
def probs_of (entries : List LoadedSource) (equal_prob : Bool) : List F64 :=
  (entries.zip (base_weights entries equal_prob)).map (fun p =>
    F64.fmax
      (match p.1.explicit_percent with
        | some pc => pc
        | none =>
          if F64.lt F64.zero (total_base entries equal_prob) then
            F64.mul (remaining entries) (F64.div p.2 (total_base entries equal_prob))
          else F64.zero)
      F64.zero)

/-- `calculate_probabilities` from `fortune_engine.rs`; its `let` locals
are the named helpers above. -/
def calculate_probabilities (entries : List LoadedSource) (equal_prob : Bool) :
    Except String (List F64) :=
  if entries.isEmpty then .error "no source entries were provided"
  else if F64.lt (F64.add (F64.ofInt 100) epsF64) (specified_total entries) then
    .error "specified probability total exceeds 100%"
  else if F64.le (fsum (probs_of entries equal_prob)) F64.zero then
    .error "computed source probabilities are all zero"
  else .ok (probs_of entries equal_prob)

/-- The selection loop of `select_random_fortune`: `chosen_idx` starts at
`entries.len() - 1` (the `fallback`); the walk breaks at the first entry
whose probability exceeds the running marker, subtracting each passed
probability from the marker. -/
def chooseIndex : List F64 → F64 → Nat → Nat → Nat
  | [], _, _, fallback => fallback
  | p :: rest, marker, idx, fallback =>
    if F64.lt marker p then idx
    else chooseIndex rest (F64.sub marker p) (idx + 1) fallback

/-- Position of the first entry whose probability exceeds the running
marker (the marker decremented by every earlier probability), if any:
the specification-side description of the walk in `select_random_fortune`,
with the fallback left to the caller. -/
def firstChoice : List F64 → F64 → Option Nat
  | [], _ => none
  | p :: rest, marker =>
    if F64.lt marker p then some 0
    else (firstChoice rest (F64.sub marker p)).map (· + 1)

/-- `select_random_fortune` from `fortune_engine.rs`.  Rust indexes
`candidate_indices[record_pos]` directly (a panic on an empty candidate
list, which `load_sources` rules out); the model reads `getD _ 0`. -/
def select_random_fortune (entries : List LoadedSource) (probabilities : List F64)
    (rng : FortuneRng) : Except String (FortuneSelection × FortuneRng) :=
  if entries.length ≠ probabilities.length then
    .error "entries/probabilities length mismatch"
  else
    let total := fsum probabilities
    if F64.le total F64.zero then .error "total probability is zero"
    else
      let ur := rng.next_unit_f64
      let marker := F64.mul ur.1 total
      let chosen_idx := chooseIndex probabilities marker 0 (entries.length - 1)
      let chosen := entries.getD chosen_idx default
      let pr := ur.2.next_index chosen.candidate_indices.length
      let record_index := chosen.candidate_indices.getD pr.1 0
      match chosen.db.record_bytes record_index with
      | .error e => .error e
      | .ok text => .ok (⟨chosen_idx, record_index, text⟩, pr.2)

/-! ## Index builder (`src/strfile_builder.rs`) -/

/-- `BuildOptions` from `strfile_builder.rs`. -/
structure BuildOptions where
  delimiter : Nat
  randomize_offsets : Bool
  order_offsets : Bool
  allow_empty : Bool

/-- `BuildOptions::default()`: delimiter `%`, no reordering, drop empty
records. -/
def BuildOptions.default : BuildOptions := ⟨37, false, false, false⟩

/-- `BuildStats` from `strfile_builder.rs`. -/
structure BuildStats where
  record_count : Nat
  shortest_record : Nat
  longest_record : Nat
deriving DecidableEq, Repr

/-- `len_for_span` (`span.end.saturating_sub(span.start)`). -/
def len_for_span (s : RecordSpan) : Nat := s.stop - s.start

/-- The bytes `input[s.start .. s.stop]`. -/
def sliceOf (input : List Nat) (s : RecordSpan) : List Nat :=
  (input.drop s.start).take (s.stop - s.start)

/-- Lexicographic `≤` on byte slices (`Ord::cmp` on `&[u8]`). -/
def lexLe : List Nat → List Nat → Bool
  | [], _ => true
  | _ :: _, [] => false
  | a :: xs, b :: ys => if a < b then true else if b < a then false else lexLe xs ys

instance : Inhabited RecordSpan := ⟨⟨0, 0⟩⟩

/-- `<[T]>::swap`. -/
def listSwap (l : List RecordSpan) (i j : Nat) : List RecordSpan :=
  (l.set i (l.getD j default)).set j (l.getD i default)

/-- The loop of `fisher_yates_shuffle`: `for i in (1..len).rev()` with
`j = rng.next_index(i + 1)` and `items.swap(i, j)`; the argument counts
the current `i`. -/
def fisherYatesLoop : List RecordSpan → FortuneRng → Nat → List RecordSpan × FortuneRng
  | items, rng, 0 => (items, rng)
  | items, rng, k + 1 =>
    let jr := rng.next_index (k + 2)
    fisherYatesLoop (listSwap items (k + 1) jr.1) jr.2 k

/-- `fisher_yates_shuffle` from `strfile_builder.rs`. -/
def fisher_yates_shuffle (items : List RecordSpan) (rng : FortuneRng) :
    List RecordSpan × FortuneRng :=
  if items.length < 2 then (items, rng)
  else fisherYatesLoop items rng (items.length - 1)

/-- `build_dat_from_text` from `strfile_builder.rs`.  The `rng` argument
stands for the `FortuneRng::from_env()` source the Rust code constructs
inside the `randomize_offsets` branch; the Rust error for an offset
exceeding `u32` interpolates the offset, the model keeps a fixed
message. -/
def build_dat_from_text (input : List Nat) (opts : BuildOptions) (rng : FortuneRng) :
    Except String (DatFile × BuildStats) :=
  if opts.order_offsets && opts.randomize_offsets then
    .error "--order and --random cannot be used together"
  else
    let spans := parse_record_spans input opts.delimiter opts.allow_empty
    if spans.isEmpty then .error "no fortune records were parsed"
    else
      let shortest := ((spans.map len_for_span).min?).getD 0
      let longest := ((spans.map len_for_span).max?).getD 0
      let ordered :=
        if opts.order_offsets then
          spans.mergeSort (fun a b => lexLe (sliceOf input a) (sliceOf input b))
        else if opts.randomize_offsets then (fisher_yates_shuffle spans rng).1
        else spans
      if ordered.any (fun s => 2 ^ 32 - 1 < s.start) then
        .error "record start offset exceeds STRFILE u32"
      else
        let offsets := ordered.map (·.start)
        let flags := if opts.randomize_offsets then 1 else if opts.order_offsets then 2 else 0
        .ok (⟨⟨STRFILE_VERSION, offsets.length % 2 ^ 32, longest % 2 ^ 32,
              shortest % 2 ^ 32, flags, opts.delimiter⟩, offsets⟩,
          ⟨spans.length, shortest, longest⟩)

/-- The corpus layout of the generated-records round-trip test
(`tests/strfile_proptest.rs`): every record is followed by a newline, and
a delimiter line separates consecutive records. -/
def joinRecords (delim : Nat) : List (List Nat) → List Nat
  | [] => []
  | [r] => r ++ [10]
  | r :: rest => r ++ [10] ++ delim :: 10 :: joinRecords delim rest

/-- The spans the build-side segmenter recovers from `joinRecords`:
record `i` occupies its bytes plus the trailing newline, and consecutive
record starts are separated by the record length plus the three bytes
`"\n%\n"` (specification side, for the builder claims). -/
def expectedSpans (base : Nat) : List (List Nat) → List RecordSpan
  | [] => []
  | [r] => [⟨base, base + r.length + 1⟩]
  | r :: rest => ⟨base, base + r.length + 1⟩ :: expectedSpans (base + r.length + 3) rest

example :
    parse_record_spans
      [111, 110, 101, 10, 37, 10, 116, 119, 111, 10, 37, 10,
       116, 104, 114, 101, 101, 10] 37 false =
      [⟨0, 4⟩, ⟨6, 10⟩, ⟨12, 18⟩] := by decide

example : find_delimiter_start [111, 110, 101, 10, 37, 10] 37 0 = some 4 := by
  decide

example : find_delimiter_start [111, 110, 101, 10, 37, 10] 37 5 = none := by
  decide

example :
    build_dat_from_text
      [97, 108, 112, 104, 97, 10, 37, 10, 98, 101, 116, 97, 10]
      BuildOptions.default ⟨.hardCoded [0] 0⟩ =
      .ok (⟨⟨2, 2, 6, 5, 0, 37⟩, [0, 8]⟩, ⟨2, 5, 6⟩) := rfl

example :
    calculate_probabilities
      [⟨default, none, [0, 1, 2]⟩, ⟨default, none, [0, 1]⟩] false =
      .ok [F64.ofInt 60, F64.ofInt 40] := rfl

example :
    select_random_fortune
      [⟨⟨⟨⟨2, 3, 2, 2, 0, 37⟩, [0, 4, 8]⟩, [120, 10, 37, 10, 121, 10, 37, 10, 122, 10]⟩,
          none, [0, 1, 2]⟩,
        ⟨⟨⟨⟨2, 2, 2, 2, 0, 37⟩, [0, 4]⟩, [117, 10, 37, 10, 118, 10]⟩, none, [0, 1]⟩]
      [F64.ofInt 60, F64.ofInt 40] ⟨.hardCoded [0] 0⟩ =
      .ok (⟨0, 0, [120, 10]⟩, ⟨.hardCoded [0] 2⟩) := rfl

example :
    FortuneFile.record_bytes ⟨⟨⟨2, 1, 5, 5, 0, 37⟩, [0]⟩, [111, 110, 101, 13, 10, 37, 10]⟩ 0 =
      .ok [111, 110, 101, 13, 10] := rfl

/-! ## Theorems -/

theorem posOfNL_some {l : List Nat} {r : Nat} (h : posOfNL l = some r) :
    r < l.length ∧ l.getD r 0 = 10 ∧ ∀ j < r, l.getD j 0 ≠ 10 := by
  induction l generalizing r with
  | nil => simp [posOfNL] at h
  | cons b rest ih =>
    rw [posOfNL] at h
    split at h
    · cases h
      refine ⟨by simp, by simpa, by omega⟩
    · rcases Option.map_eq_some'.mp h with ⟨r', hr', rfl⟩
      rcases ih hr' with ⟨h1, h2, h3⟩
      refine ⟨by simpa using h1, by simpa using h2, ?_⟩
      intro j hj
      match j with
      | 0 => simpa using (by assumption : ¬b = 10)
      | j + 1 => simpa using h3 j (by omega)

theorem posOfNL_none {l : List Nat} (h : posOfNL l = none) :
    ∀ j < l.length, l.getD j 0 ≠ 10 := by
  induction l with
  | nil => simp
  | cons b rest ih =>
    rw [posOfNL] at h
    split at h
    · cases h
    · intro j hj
      match j with
      | 0 => simpa using (by assumption : ¬b = 10)
      | j + 1 =>
        simpa using ih (Option.map_eq_none'.mp h) j (by simpa using hj)

theorem slice_getD (input : List Nat) (c b k : Nat) (hk : k < b - c) :
    ((input.drop c).take (b - c)).getD k 0 = input.getD (c + k) 0 := by
  simp only [List.getD_eq_getElem?_getD]
  rw [List.getElem?_take, if_pos hk, List.getElem?_drop]

theorem cursor_le_lineEnd (input : List Nat) (cursor bound : Nat)
    (h : cursor ≤ bound) : cursor ≤ lineEnd input cursor bound := by
  unfold lineEnd
  split
  · omega
  · exact h

theorem lineEnd_le (input : List Nat) (cursor bound : Nat) (h : cursor ≤ bound) :
    lineEnd input cursor bound ≤ bound := by
  unfold lineEnd
  split
  · next rel heq =>
    have := (posOfNL_some heq).1
    simp at this
    omega
  · omega

/-- When the scan window contains a newline, `lineEnd` points at its
absolute position: a `\n` byte before both bounds, with none between the
cursor and it. -/
theorem lineEnd_found (input : List Nat) (cursor bound : Nat)
    (hlt : lineEnd input cursor bound < bound) :
    lineEnd input cursor bound < input.length ∧
      input.getD (lineEnd input cursor bound) 0 = 10 ∧
      ∀ j, cursor ≤ j → j < lineEnd input cursor bound → input.getD j 0 ≠ 10 := by
  unfold lineEnd at *
  split at hlt
  · next rel heq =>
    rcases posOfNL_some heq with ⟨h1, h2, h3⟩
    simp at h1
    have hrel : rel < bound - cursor := by omega
    rw [slice_getD input cursor bound rel hrel] at h2
    refine ⟨by omega, h2, ?_⟩
    intro j hj1 hj2
    have := h3 (j - cursor) (by omega)
    rw [slice_getD input cursor bound (j - cursor) (by omega)] at this
    have hcj : cursor + (j - cursor) = j := by omega
    rwa [hcj] at this
  · omega

/-- When `lineEnd` hits the bound, there is no newline in the window. -/
theorem lineEnd_not_found (input : List Nat) (cursor bound : Nat)
    (heq : lineEnd input cursor bound = bound) (hcb : cursor ≤ bound) :
    ∀ j, cursor ≤ j → j < bound → j < input.length → input.getD j 0 ≠ 10 := by
  unfold lineEnd at heq
  split at heq
  · next rel hp =>
    rcases posOfNL_some hp with ⟨h1, h2, h3⟩
    simp at h1
    intro j hj1 hj2 hj3
    by_cases hjr : j < cursor + rel
    · have := h3 (j - cursor) (by omega)
      rw [slice_getD input cursor bound (j - cursor) (by omega)] at this
      have hcj : cursor + (j - cursor) = j := by omega
      rwa [hcj] at this
    · intro hbyte
      have hrb : rel < bound - cursor := by omega
      rw [slice_getD input cursor bound rel hrb] at h2
      omega
  · next hp =>
    have := posOfNL_none hp
    intro j hj1 hj2 hj3
    have hjlt : j - cursor < ((input.drop cursor).take (bound - cursor)).length := by
      simp
      omega
    have := this (j - cursor) hjlt
    rw [slice_getD input cursor bound (j - cursor) (by omega)] at this
    have hcj : cursor + (j - cursor) = j := by omega
    rwa [hcj] at this

theorem cursor_le_contentEnd (input : List Nat) (cursor le : Nat)
    (h : cursor ≤ le) : cursor ≤ contentEnd input cursor le := by
  unfold contentEnd
  split <;> omega

theorem contentEnd_le (input : List Nat) (cursor le : Nat) :
    contentEnd input cursor le ≤ le := by
  unfold contentEnd
  split <;> omega

/-- The build-side delimiter-line test (`content_end - cursor == 1`, `Nat`
subtraction) agrees with the read-side one (`content_end == cursor + 1`). -/
theorem delim_test_agree (input : List Nat) (cursor le : Nat) (h : cursor ≤ le) :
    (contentEnd input cursor le - cursor = 1) ↔ (contentEnd input cursor le = cursor + 1) := by
  have := cursor_le_contentEnd input cursor le h
  omega

/-- One scan step strictly advances the cursor. -/
theorem next_cursor_gt (input : List Nat) (cursor bound : Nat) (h : cursor < bound) :
    cursor <
      (if lineEnd input cursor bound < bound then lineEnd input cursor bound + 1
       else lineEnd input cursor bound) := by
  have h1 := cursor_le_lineEnd input cursor bound (by omega)
  have h2 := lineEnd_le input cursor bound (by omega)
  split <;> omega

/-- The read-side scan does not depend on the fuel, as long as the fuel
covers the remaining bytes. -/
theorem find_from_congr (input : List Nat) (delim : Nat) :
    ∀ fuel fuel' cursor, input.length - cursor < fuel → input.length - cursor < fuel' →
      find_delimiter_start_from input delim fuel cursor =
        find_delimiter_start_from input delim fuel' cursor := by
  intro fuel
  induction fuel with
  | zero =>
    intro fuel' cursor h h'
    exact absurd h (by omega)
  | succ f ih =>
    intro fuel' cursor h h'
    cases fuel' with
    | zero => exact absurd h' (by omega)
    | succ f' =>
      simp only [find_delimiter_start_from]
      by_cases hc : cursor < input.length
      · simp only [if_pos hc]
        have hnext := next_cursor_gt input cursor input.length hc
        split
        · rfl
        · exact ih f' _ (by omega) (by omega)
      · simp only [if_neg hc]

/-- Unfolding the read-side scan one line at a time. -/
theorem find_delimiter_start_step (input : List Nat) (delim cursor : Nat)
    (hc : cursor < input.length) :
    find_delimiter_start input delim cursor =
      (if contentEnd input cursor (lineEnd input cursor input.length) = cursor + 1 ∧
          input.getD cursor 0 = delim then some cursor
       else find_delimiter_start input delim
         (if lineEnd input cursor input.length < input.length then
            lineEnd input cursor input.length + 1
          else lineEnd input cursor input.length)) := by
  unfold find_delimiter_start
  conv_lhs => rw [show input.length + 1 = input.length + 1 from rfl]
  rw [show find_delimiter_start_from input delim (input.length + 1) cursor =
      (if cursor < input.length then
        if contentEnd input cursor (lineEnd input cursor input.length) = cursor + 1 ∧
            input.getD cursor 0 = delim then some cursor
        else find_delimiter_start_from input delim input.length
          (if lineEnd input cursor input.length < input.length then
            lineEnd input cursor input.length + 1
           else lineEnd input cursor input.length)
      else none) from rfl]
  rw [if_pos hc]
  split
  · rfl
  · have hnext := next_cursor_gt input cursor input.length hc
    exact find_from_congr input delim input.length (input.length + 1) _ (by omega) (by omega)

/-- Past the end of the buffer, the read-side scan reports no delimiter. -/
theorem find_delimiter_start_stop (input : List Nat) (delim cursor : Nat)
    (hc : ¬cursor < input.length) :
    find_delimiter_start input delim cursor = none := by
  unfold find_delimiter_start
  rw [show find_delimiter_start_from input delim (input.length + 1) cursor =
      (if cursor < input.length then
        if contentEnd input cursor (lineEnd input cursor input.length) = cursor + 1 ∧
            input.getD cursor 0 = delim then some cursor
        else find_delimiter_start_from input delim input.length
          (if lineEnd input cursor input.length < input.length then
            lineEnd input cursor input.length + 1
           else lineEnd input cursor input.length)
      else none) from rfl]
  rw [if_neg hc]

/-- Core of the build/read agreement: along the build-side loop the
read-side scan started at the pending record start agrees with the scan
started at the current cursor, so every emitted span's `stop` is exactly
what the read side computes from its `start`. -/
theorem parse_spans_agree_aux (input : List Nat) (delim : Nat) :
    ∀ fuel cursor start,
      input.length - cursor < fuel →
      find_delimiter_start input delim start = find_delimiter_start input delim cursor →
      ∀ s ∈ parse_record_spans_from input delim false fuel cursor start,
        find_delimiter_start input delim s.start = some s.stop ∨
          (find_delimiter_start input delim s.start = none ∧ s.stop = input.length) := by
  intro fuel
  induction fuel with
  | zero =>
    intro cursor start h _ s _
    exact absurd h (by omega)
  | succ f ih =>
    intro cursor start h hinv s hs
    by_cases hc : cursor < input.length
    · simp only [parse_record_spans_from, Bool.false_or, if_pos hc] at hs
      have hcle : cursor ≤ lineEnd input cursor input.length :=
        cursor_le_lineEnd input cursor input.length (by omega)
      have hce : cursor ≤ contentEnd input cursor (lineEnd input cursor input.length) :=
        cursor_le_contentEnd input cursor _ hcle
      have hnext := next_cursor_gt input cursor input.length hc
      split at hs
      · next htest =>
        rcases List.mem_append.mp hs with hmem | hmem
        · by_cases hsc : start < cursor
          · simp only [if_pos (decide_eq_true hsc), List.mem_singleton] at hmem
            subst hmem
            left
            rw [hinv, find_delimiter_start_step input delim cursor hc,
              if_pos ⟨by omega, htest.2⟩]
          · simp [hsc] at hmem
        · exact ih _ _ (by omega) rfl s hmem
      · next htest =>
        refine ih _ start (by omega) ?_ s hs
        rw [hinv, find_delimiter_start_step input delim cursor hc, if_neg ?_]
        intro hread
        exact htest ⟨by omega, hread.2⟩
    · simp only [parse_record_spans_from, Bool.false_or, if_neg hc] at hs
      by_cases hsl : start < input.length
      · simp only [if_pos (decide_eq_true hsl), List.mem_singleton] at hs
        subst hs
        right
        exact ⟨hinv.trans (find_delimiter_start_stop input delim cursor hc), rfl⟩
      · simp [hsl] at hs

/-- A found delimiter-line start lies at or after the scan start and
inside the buffer. -/
theorem find_from_some_bounds (input : List Nat) (delim : Nat) :
    ∀ fuel cursor c, find_delimiter_start_from input delim fuel cursor = some c →
      cursor ≤ c ∧ c < input.length := by
  intro fuel
  induction fuel with
  | zero =>
    intro cursor c h
    simp [find_delimiter_start_from] at h
  | succ f ih =>
    intro cursor c h
    simp only [find_delimiter_start_from] at h
    by_cases hc : cursor < input.length
    · rw [if_pos hc] at h
      split at h
      · cases h
        exact ⟨le_refl _, hc⟩
      · have hnext := next_cursor_gt input cursor input.length hc
        have := ih _ c h
        constructor <;> omega
    · rw [if_neg hc] at h
      cases h

/-- Bounds for the wrapped read-side scan. -/
theorem find_delimiter_start_some (input : List Nat) (delim start c : Nat)
    (h : find_delimiter_start input delim start = some c) :
    start ≤ c ∧ c < input.length :=
  find_from_some_bounds input delim (input.length + 1) start c h

/-- `lineEnd` is determined by the position of the first newline. -/
theorem lineEnd_eq_of (input : List Nat) (cursor bound m : Nat)
    (h1 : cursor ≤ m) (h2 : m < bound) (h3 : m < input.length)
    (h4 : input.getD m 0 = 10)
    (h5 : ∀ j, cursor ≤ j → j < m → input.getD j 0 ≠ 10) :
    lineEnd input cursor bound = m := by
  have hle := lineEnd_le input cursor bound (by omega)
  have hge := cursor_le_lineEnd input cursor bound (by omega)
  rcases Nat.lt_or_ge (lineEnd input cursor bound) bound with hfound | hnot
  · rcases lineEnd_found input cursor bound hfound with ⟨f1, f2, f3⟩
    rcases Nat.lt_trichotomy (lineEnd input cursor bound) m with hlt | heq | hgt
    · exact absurd f2 (h5 _ hge hlt)
    · exact heq
    · exact absurd h4 (f3 m h1 hgt)
  · have heq : lineEnd input cursor bound = bound := by omega
    exact absurd h4 (lineEnd_not_found input cursor bound heq (by omega) m h1 h2 h3)

/-- Along a read-side scan that finds a delimiter line at `e`, the
`delimiter_trimmed_end` scan bounded by `e` walks the same lines and
reaches `e`. -/
theorem trimmed_from_eq_of_find (input : List Nat) (delim e : Nat) :
    ∀ fuel cursor, input.length - cursor < fuel →
      find_delimiter_start input delim cursor = some e →
      delimiter_trimmed_end_from input delim e fuel cursor = e := by
  intro fuel
  induction fuel with
  | zero =>
    intro cursor h _
    exact absurd h (by omega)
  | succ f ih =>
    intro cursor h hfind
    have hbounds := find_delimiter_start_some input delim cursor e hfind
    simp only [delimiter_trimmed_end_from]
    by_cases hce : cursor < e
    · rw [if_pos hce]
      have hc : cursor < input.length := by omega
      rw [find_delimiter_start_step input delim cursor hc] at hfind
      split at hfind
      · cases hfind
        omega
      · next htest =>
        have hlel : lineEnd input cursor input.length < input.length := by
          by_contra hll
          have hle2 := lineEnd_le input cursor input.length (by omega)
          have heq : lineEnd input cursor input.length = input.length := by omega
          rw [if_neg (by omega), heq] at hfind
          rw [find_delimiter_start_stop input delim input.length (by omega)] at hfind
          cases hfind
        rw [if_pos hlel] at hfind
        have hnb := find_delimiter_start_some input delim _ e hfind
        rcases lineEnd_found input cursor input.length hlel with ⟨f1, f2, f3⟩
        have hcle := cursor_le_lineEnd input cursor input.length (by omega)
        have hlee : lineEnd input cursor e = lineEnd input cursor input.length :=
          lineEnd_eq_of input cursor e _ hcle (by omega) f1 f2 f3
        have hlt : lineEnd input cursor e < e := by rw [hlee]; omega
        rw [if_neg (by rw [hlee]; exact htest)]
        rw [if_pos hlt]
        rw [hlee]
        exact ih _ (by omega) hfind
    · rw [if_neg hce]

/-- When the read-side scan finds no delimiter line, the
`delimiter_trimmed_end` scan bounded by the buffer length reaches the
buffer length. -/
theorem trimmed_from_eq_of_none (input : List Nat) (delim : Nat) :
    ∀ fuel cursor, input.length - cursor < fuel →
      find_delimiter_start input delim cursor = none →
      delimiter_trimmed_end_from input delim input.length fuel cursor = input.length := by
  intro fuel
  induction fuel with
  | zero =>
    intro cursor h _
    exact absurd h (by omega)
  | succ f ih =>
    intro cursor h hfind
    simp only [delimiter_trimmed_end_from]
    by_cases hc : cursor < input.length
    · rw [if_pos hc]
      rw [find_delimiter_start_step input delim cursor hc] at hfind
      split at hfind
      · cases hfind
      · next htest =>
        rw [if_neg (fun hread => htest hread)]
        have hnext := next_cursor_gt input cursor input.length hc
        have hcle := cursor_le_lineEnd input cursor input.length (by omega)
        split
        · exact ih _ (by omega) (by
            have hlel : lineEnd input cursor input.length < input.length := by assumption
            rwa [if_pos hlel] at hfind)
        · next hnl =>
          have hle2 := lineEnd_le input cursor input.length (by omega)
          rw [if_neg hnl] at hfind
          exact ih _ (by omega) hfind
    · rw [if_neg hc]

/-- Inversion of a successful `FortuneFile::span`. -/
theorem span_inv (ff : FortuneFile) (idx : Nat) (s : RecordSpan)
    (h : ff.span idx = .ok s) :
    ff.dat.offsets.get? idx = some s.start ∧
      s.stop = (find_delimiter_start ff.bytes ff.dat.header.delim s.start).getD
        ff.bytes.length ∧
      s.start ≤ s.stop ∧ s.stop ≤ ff.bytes.length := by
  unfold FortuneFile.span at h
  cases hg : ff.dat.offsets.get? idx with
  | none => rw [hg] at h; cases h
  | some start =>
    rw [hg] at h
    dsimp only at h
    by_cases hcond :
        start >
          (find_delimiter_start ff.bytes ff.dat.header.delim start).getD
            ff.bytes.length ∨
          (find_delimiter_start ff.bytes ff.dat.header.delim start).getD
            ff.bytes.length > ff.bytes.length
    · rw [if_pos hcond] at h
      cases h
    · rw [if_neg hcond] at h
      cases h
      push_neg at hcond
      refine ⟨rfl, rfl, ?_, ?_⟩
      · simpa using hcond.1
      · simpa using hcond.2

/-- Within a span computed by `FortuneFile::span`, the
`delimiter_trimmed_end` rescan finds no earlier delimiter line: it
returns the span's own `stop`. -/
theorem trimmed_end_of_span (ff : FortuneFile) (idx : Nat) (s : RecordSpan)
    (h : ff.span idx = .ok s) :
    delimiter_trimmed_end ff.bytes ff.dat.header.delim s.start s.stop = s.stop := by
  rcases span_inv ff idx s h with ⟨_, hstop, _, _⟩
  unfold delimiter_trimmed_end
  cases hf : find_delimiter_start ff.bytes ff.dat.header.delim s.start with
  | some e =>
    rw [hf] at hstop
    simp only [Option.getD_some] at hstop
    rw [hstop]
    exact trimmed_from_eq_of_find ff.bytes ff.dat.header.delim e
      (ff.bytes.length + 1) s.start (by omega) hf
  | none =>
    rw [hf] at hstop
    simp only [Option.getD_none] at hstop
    rw [hstop]
    exact trimmed_from_eq_of_none ff.bytes ff.dat.header.delim
      (ff.bytes.length + 1) s.start (by omega) hf

/-- A successful span makes `record_bytes` return the whole span slice. -/
theorem record_bytes_of_span (ff : FortuneFile) (idx : Nat) (s : RecordSpan)
    (h : ff.span idx = .ok s) :
    ff.record_bytes idx = .ok ((ff.bytes.drop s.start).take (s.stop - s.start)) := by
  unfold FortuneFile.record_bytes
  rw [h]
  dsimp only
  rw [trimmed_end_of_span ff idx s h]

/-- C1: for every byte buffer, delimiter and span produced by the
build-side segmenter with `allow_empty = false`, the read-side scan from
the span's start finds its first delimiter line exactly at the span's
end, or — when no delimiter line follows — reports end-of-buffer, which
equals the span's end. -/
theorem build_read_segmentation_agreement (input : List Nat) (delim : Nat)
    (s : RecordSpan) (hs : s ∈ parse_record_spans input delim false) :
    find_delimiter_start input delim s.start = some s.stop ∨
      (find_delimiter_start input delim s.start = none ∧ s.stop = input.length) :=
  parse_spans_agree_aux input delim (input.length + 1) 0 0 (by omega) rfl s hs

/-- Witness for C1 on the corpus `"one\n%\ntwo\n%\nthree\n"`: the middle
span and the final span. -/
theorem build_read_segmentation_agreement_witness :
    ((⟨6, 10⟩ : RecordSpan) ∈
        parse_record_spans
          [111, 110, 101, 10, 37, 10, 116, 119, 111, 10, 37, 10,
           116, 104, 114, 101, 101, 10] 37 false) ∧
      (find_delimiter_start
          [111, 110, 101, 10, 37, 10, 116, 119, 111, 10, 37, 10,
           116, 104, 114, 101, 101, 10] 37 6 = some 10 ∨
        (find_delimiter_start
            [111, 110, 101, 10, 37, 10, 116, 119, 111, 10, 37, 10,
             116, 104, 114, 101, 101, 10] 37 6 = none ∧
          (10 : Nat) = 18)) :=
  ⟨by decide,
    build_read_segmentation_agreement
      [111, 110, 101, 10, 37, 10, 116, 119, 111, 10, 37, 10,
       116, 104, 114, 101, 101, 10] 37 ⟨6, 10⟩ (by decide)⟩

/-- C7 counterexample: on the corpus `"one\r\n%\n"` (index offset `0`),
`record_bytes` returns `"one\r\n"` — the carriage return preceding the
record's final line terminator is NOT removed, contrary to the claim
that one trailing `\r` is trimmed from the returned record bytes. -/
theorem record_bytes_keeps_trailing_cr :
    FortuneFile.record_bytes
        ⟨⟨⟨2, 1, 5, 5, 0, 37⟩, [0]⟩, [111, 110, 101, 13, 10, 37, 10]⟩ 0 =
      .ok [111, 110, 101, 13, 10] ∧
      ([111, 110, 101, 13, 10] : List Nat) ≠ [111, 110, 101, 10] :=
  ⟨rfl, by decide⟩

/-- C7 (amended): the bytes returned to callers are exactly the span's
bytes, unchanged — the rescan bounded by the span's end returns the
span's end, and the carriage-return strip is applied only inside the
delimiter-line recognition, never to the returned record bytes. -/
theorem record_bytes_returns_span_unchanged (ff : FortuneFile) (idx : Nat)
    (s : RecordSpan) (h : ff.span idx = .ok s) :
    delimiter_trimmed_end ff.bytes ff.dat.header.delim s.start s.stop = s.stop ∧
      ff.record_bytes idx = .ok ((ff.bytes.drop s.start).take (s.stop - s.start)) :=
  ⟨trimmed_end_of_span ff idx s h, record_bytes_of_span ff idx s h⟩

/-- Witness for the amended C7 on the CRLF corpus `"one\r\n%\n"`. -/
theorem record_bytes_returns_span_unchanged_witness :
    FortuneFile.span ⟨⟨⟨2, 1, 5, 5, 0, 37⟩, [0]⟩, [111, 110, 101, 13, 10, 37, 10]⟩ 0 =
        .ok ⟨0, 5⟩ ∧
      (delimiter_trimmed_end [111, 110, 101, 13, 10, 37, 10] 37 0 5 = 5 ∧
        FortuneFile.record_bytes
            ⟨⟨⟨2, 1, 5, 5, 0, 37⟩, [0]⟩, [111, 110, 101, 13, 10, 37, 10]⟩ 0 =
          .ok (([111, 110, 101, 13, 10, 37, 10].drop 0).take (5 - 0))) :=
  ⟨rfl,
    record_bytes_returns_span_unchanged
      ⟨⟨⟨2, 1, 5, 5, 0, 37⟩, [0]⟩, [111, 110, 101, 13, 10, 37, 10]⟩ 0 ⟨0, 5⟩ rfl⟩

/-- C10: once open-time validation accepted every offset
(`validate_offsets` succeeded), `span` and `record_bytes` succeed for
every index below the record count: the span satisfies
`start ≤ stop ≤ bytes.length` (the inverted-span error branch is
unreachable) and `record_bytes` returns the in-bounds slice. -/
theorem validated_span_record_bytes_safe (ff : FortuneFile)
    (hv : ff.validate_offsets = .ok ()) (idx : Nat)
    (hidx : idx < ff.record_count) :
    ∃ s : RecordSpan,
      ff.span idx = .ok s ∧ s.start ≤ s.stop ∧ s.stop ≤ ff.bytes.length ∧
        ff.record_bytes idx = .ok ((ff.bytes.drop s.start).take (s.stop - s.start)) := by
  unfold FortuneFile.validate_offsets at hv
  have hall : ∀ o ∈ ff.dat.offsets, o ≤ ff.bytes.length := by
    intro o ho
    by_contra hlen
    have hany : (ff.dat.offsets.any fun o => decide (ff.bytes.length < o)) = true := by
      rw [List.any_eq_true]
      exact ⟨o, ho, decide_eq_true (by omega)⟩
    rw [if_pos hany] at hv
    cases hv
  unfold FortuneFile.record_count at hidx
  cases hg : ff.dat.offsets.get? idx with
  | none =>
    rw [List.get?_eq_none] at hg
    omega
  | some start =>
    have hstart : start ≤ ff.bytes.length := hall start (List.get?_mem hg)
    have hstop :
        start ≤ (find_delimiter_start ff.bytes ff.dat.header.delim start).getD
            ff.bytes.length ∧
          (find_delimiter_start ff.bytes ff.dat.header.delim start).getD
            ff.bytes.length ≤ ff.bytes.length := by
      cases hf : find_delimiter_start ff.bytes ff.dat.header.delim start with
      | some e =>
        have := find_delimiter_start_some ff.bytes ff.dat.header.delim start e hf
        simp only [Option.getD_some]
        omega
      | none => simpa using hstart
    have hspan : ff.span idx =
        .ok ⟨start, (find_delimiter_start ff.bytes ff.dat.header.delim start).getD
          ff.bytes.length⟩ := by
      unfold FortuneFile.span
      rw [hg]
      dsimp only
      rw [if_neg (by omega)]
    refine ⟨_, hspan, hstop.1, hstop.2, record_bytes_of_span ff idx _ hspan⟩

/-- Witness for C10 on a two-record corpus. -/
theorem validated_span_record_bytes_safe_witness :
    FortuneFile.validate_offsets
        ⟨⟨⟨2, 2, 2, 2, 0, 37⟩, [0, 4]⟩, [117, 10, 37, 10, 118, 10]⟩ = .ok () ∧
      (1 : Nat) < FortuneFile.record_count
        ⟨⟨⟨2, 2, 2, 2, 0, 37⟩, [0, 4]⟩, [117, 10, 37, 10, 118, 10]⟩ ∧
      ∃ s : RecordSpan,
        FortuneFile.span ⟨⟨⟨2, 2, 2, 2, 0, 37⟩, [0, 4]⟩, [117, 10, 37, 10, 118, 10]⟩ 1 =
            .ok s ∧
          s.start ≤ s.stop ∧ s.stop ≤ ([117, 10, 37, 10, 118, 10] : List Nat).length ∧
          FortuneFile.record_bytes
              ⟨⟨⟨2, 2, 2, 2, 0, 37⟩, [0, 4]⟩, [117, 10, 37, 10, 118, 10]⟩ 1 =
            .ok (([117, 10, 37, 10, 118, 10].drop s.start).take (s.stop - s.start)) :=
  ⟨rfl, by decide,
    validated_span_record_bytes_safe
      ⟨⟨⟨2, 2, 2, 2, 0, 37⟩, [0, 4]⟩, [117, 10, 37, 10, 118, 10]⟩ rfl 1 (by decide)⟩

/-- C3: for every `FortuneRng` state, `next_index(upper)` returns `0`
with the state untouched when `upper == 0`, and otherwise returns
`next_u64() % upper` with the state advanced by exactly the one
`next_u64` draw (plain modulo reduction, no rejection sampling). -/
theorem next_index_modulo (r : FortuneRng) (upper : Nat) :
    (upper = 0 → r.next_index upper = (0, r)) ∧
      (upper ≠ 0 →
        (r.next_index upper).1 = r.next_u64.1 % upper ∧
          (r.next_index upper).2 = r.next_u64.2 ∧
          (r.next_index upper).2.draws = r.draws + 1) := by
  obtain ⟨mode⟩ := r
  constructor
  · intro h
    simp [FortuneRng.next_index, h]
  · intro h
    cases mode <;>
      simp [FortuneRng.next_index, FortuneRng.next_u64, FortuneRng.draws, h]

/-- Witness for C3 at a hard-coded state and `upper = 5`. -/
theorem next_index_modulo_witness :
    (5 : Nat) ≠ 0 ∧
      ((FortuneRng.next_index ⟨.hardCoded [7] 0⟩ 5).1 =
          (FortuneRng.next_u64 ⟨.hardCoded [7] 0⟩).1 % 5 ∧
        (FortuneRng.next_index ⟨.hardCoded [7] 0⟩ 5).2 =
          (FortuneRng.next_u64 ⟨.hardCoded [7] 0⟩).2 ∧
        (FortuneRng.next_index ⟨.hardCoded [7] 0⟩ 5).2.draws =
          FortuneRng.draws ⟨.hardCoded [7] 0⟩ + 1) :=
  ⟨by decide, (next_index_modulo ⟨.hardCoded [7] 0⟩ 5).2 (by decide)⟩

/-- C8, the failing input: with `next_u64` yielding
`u64::MAX = 2^64 - 1`, `next_unit_f64` returns exactly `1.0` — not
`(2^64 - 1) / 2^64`, and not a value below `1` — because the cast
`(2^64 - 1) as f64` rounds up to `2^64` and the divisor
`(u64::MAX as f64) + 1.0` also evaluates to exactly `2^64`. -/
theorem next_unit_f64_reaches_one :
    (FortuneRng.next_unit_f64 ⟨.hardCoded [2 ^ 64 - 1] 0⟩).1 = F64.ofInt 1 ∧
      ¬F64.lt (FortuneRng.next_unit_f64 ⟨.hardCoded [2 ^ 64 - 1] 0⟩).1 (F64.ofInt 1) ∧
      F64.toRat (FortuneRng.next_unit_f64 ⟨.hardCoded [2 ^ 64 - 1] 0⟩).1 = 1 ∧
      ((2 ^ 64 - 1 : ℚ) / 2 ^ 64) ≠ 1 := by
  refine ⟨by decide, by decide, ?_, by norm_num⟩
  rw [show (FortuneRng.next_unit_f64 ⟨.hardCoded [2 ^ 64 - 1] 0⟩).1 =
      (⟨2 ^ 52, -52⟩ : F64) from by decide]
  norm_num [F64.toRat]
  rw [show Int.toNat 52 = (52 : ℕ) from rfl]
  norm_num

/-! ## Lemmas: the index codec -/

theorem flatten_u32be_length (offs : List Nat) :
    ((offs.map u32be).flatten).length = 4 * offs.length := by
  induction offs with
  | nil => simp
  | cons o rest ih =>
    show (u32be o ++ (rest.map u32be).flatten).length = 4 * (o :: rest).length
    rw [List.length_append, ih, List.length_cons]
    simp only [u32be, List.length_cons, List.length_nil]
    omega

theorem getD_append_shift (A c : List Nat) (k : Nat) :
    (A ++ c).getD (A.length + k) 0 = c.getD k 0 := by
  simp only [List.getD_eq_getElem?_getD]
  rw [List.getElem?_append_right (by omega), Nat.add_sub_cancel_left]

/-- Reading the offset table back from its encoding. -/
theorem readOffsets_encoded : ∀ (A offs : List Nat), (∀ o ∈ offs, o < 2 ^ 32) →
    readOffsets (A ++ (offs.map u32be).flatten) A.length offs.length = offs := by
  intro A offs
  induction offs generalizing A with
  | nil => intro _; simp [readOffsets]
  | cons o rest ih =>
    intro hb
    have ho : o < 2 ^ 32 := hb o (List.mem_cons_self o rest)
    have hassoc : A ++ ((o :: rest).map u32be).flatten =
        (A ++ u32be o) ++ (rest.map u32be).flatten := by
      simp [List.append_assoc]
    simp only [List.length_cons]
    rw [readOffsets]
    have hg0 : (A ++ ((o :: rest).map u32be).flatten).getD A.length 0 = o / 2 ^ 24 % 256 := by
      have := getD_append_shift A (((o :: rest).map u32be).flatten) 0
      rw [Nat.add_zero] at this
      rw [this]
      rfl
    have hg1 : (A ++ ((o :: rest).map u32be).flatten).getD (A.length + 1) 0 =
        o / 2 ^ 16 % 256 := by
      rw [getD_append_shift]
      rfl
    have hg2 : (A ++ ((o :: rest).map u32be).flatten).getD (A.length + 2) 0 =
        o / 2 ^ 8 % 256 := by
      rw [getD_append_shift]
      rfl
    have hg3 : (A ++ ((o :: rest).map u32be).flatten).getD (A.length + 3) 0 = o % 256 := by
      rw [getD_append_shift]
      rfl
    rw [hg0, hg1, hg2, hg3]
    congr 1
    · unfold beU32
      omega
    · have hlen4 : (A ++ u32be o).length = A.length + 4 := by
        simp [u32be]
      rw [hassoc, show A.length + 4 = (A ++ u32be o).length from hlen4.symm]
      exact ih (A ++ u32be o) (fun o' ho' => hb o' (List.mem_cons_of_mem o ho'))

/-- Decoding a buffer laid out as a header (with arbitrary padding bytes
`p q r`) followed by an encoded offset table recovers the fields. -/
theorem read_encoded (v n l s fl d p q r : Nat) (offs : List Nat)
    (hv : v < 2 ^ 32) (hn : n < 2 ^ 32) (hl : l < 2 ^ 32) (hs : s < 2 ^ 32)
    (hfl : fl < 2 ^ 32) (hoffs : ∀ o ∈ offs, o < 2 ^ 32) (hcount : n = offs.length) :
    DatFile.read_from_bytes
        (u32be v ++ u32be n ++ u32be l ++ u32be s ++ u32be fl ++ [d] ++ [p, q, r] ++
          (offs.map u32be).flatten) =
      .ok ⟨⟨v, n, l, s, fl, d⟩, offs⟩ := by
  set B := u32be v ++ u32be n ++ u32be l ++ u32be s ++ u32be fl ++ [d] ++ [p, q, r] ++
    (offs.map u32be).flatten with hB
  have hlen : B.length = 24 + 4 * offs.length := by
    rw [hB]
    simp only [List.length_append, flatten_u32be_length, u32be, List.length_cons,
      List.length_nil]
  have hver : beU32 (B.getD 0 0) (B.getD 1 0) (B.getD 2 0) (B.getD 3 0) = v := by
    show beU32 (v / 2 ^ 24 % 256) (v / 2 ^ 16 % 256) (v / 2 ^ 8 % 256) (v % 256) = v
    unfold beU32
    omega
  have hnum : beU32 (B.getD 4 0) (B.getD 5 0) (B.getD 6 0) (B.getD 7 0) = n := by
    show beU32 (n / 2 ^ 24 % 256) (n / 2 ^ 16 % 256) (n / 2 ^ 8 % 256) (n % 256) = n
    unfold beU32
    omega
  have hlong : beU32 (B.getD 8 0) (B.getD 9 0) (B.getD 10 0) (B.getD 11 0) = l := by
    show beU32 (l / 2 ^ 24 % 256) (l / 2 ^ 16 % 256) (l / 2 ^ 8 % 256) (l % 256) = l
    unfold beU32
    omega
  have hshort : beU32 (B.getD 12 0) (B.getD 13 0) (B.getD 14 0) (B.getD 15 0) = s := by
    show beU32 (s / 2 ^ 24 % 256) (s / 2 ^ 16 % 256) (s / 2 ^ 8 % 256) (s % 256) = s
    unfold beU32
    omega
  have hflags : beU32 (B.getD 16 0) (B.getD 17 0) (B.getD 18 0) (B.getD 19 0) = fl := by
    show beU32 (fl / 2 ^ 24 % 256) (fl / 2 ^ 16 % 256) (fl / 2 ^ 8 % 256) (fl % 256) = fl
    unfold beU32
    omega
  have hdelim : B.getD 20 0 = d := by
    show d = d
    rfl
  unfold DatFile.read_from_bytes
  simp only [HEADER_BYTES]
  rw [if_neg (by omega)]
  rw [hnum]
  rw [show checked_mul n 4 = some (n * 4) from by unfold checked_mul; rw [if_pos (by omega)]]
  dsimp only
  rw [show checked_add 24 (n * 4) = some (24 + n * 4) from by
    unfold checked_add; rw [if_pos (by omega)]]
  dsimp only
  rw [if_neg (by omega)]
  rw [hver, hlong, hshort, hflags, hdelim]
  have hoffsets : readOffsets B 24 n = offs := by
    have hpre : (u32be v ++ u32be n ++ u32be l ++ u32be s ++ u32be fl ++ [d] ++
        [p, q, r]).length = 24 := by
      simp [u32be]
    have hsplit : B = (u32be v ++ u32be n ++ u32be l ++ u32be s ++ u32be fl ++ [d] ++
        [p, q, r]) ++ (offs.map u32be).flatten := by
      rw [hB]
    rw [hcount, hsplit, show (24 : Nat) = (u32be v ++ u32be n ++ u32be l ++ u32be s ++
      u32be fl ++ [d] ++ [p, q, r]).length from hpre.symm]
    exact readOffsets_encoded _ offs hoffs
  rw [hoffsets]

/-- C2: an `IndexFile` whose `numstr` matches its offset count, with the
count representable in `u32`, encodes successfully with zero padding
bytes, and decoding the encoding — with the original zero padding or any
other padding bytes — returns exactly the original value. -/
theorem dat_codec_roundtrip (x : DatFile)
    (hv : x.header.version < 2 ^ 32) (hn : x.header.numstr = x.offsets.length)
    (hl : x.header.longlen < 2 ^ 32) (hs : x.header.shortlen < 2 ^ 32)
    (hf : x.header.flags < 2 ^ 32) (hcount : x.offsets.length < 2 ^ 32)
    (hoffs : ∀ o ∈ x.offsets, o < 2 ^ 32) :
    x.to_bytes = .ok (u32be x.header.version ++ u32be x.header.numstr ++
        u32be x.header.longlen ++ u32be x.header.shortlen ++ u32be x.header.flags ++
        [x.header.delim] ++ [0, 0, 0] ++ (x.offsets.map u32be).flatten) ∧
      DatFile.read_from_bytes (u32be x.header.version ++ u32be x.header.numstr ++
        u32be x.header.longlen ++ u32be x.header.shortlen ++ u32be x.header.flags ++
        [x.header.delim] ++ [0, 0, 0] ++ (x.offsets.map u32be).flatten) = .ok x ∧
      ∀ p q r : Nat,
        DatFile.read_from_bytes (u32be x.header.version ++ u32be x.header.numstr ++
          u32be x.header.longlen ++ u32be x.header.shortlen ++ u32be x.header.flags ++
          [x.header.delim] ++ [p, q, r] ++ (x.offsets.map u32be).flatten) = .ok x := by
  obtain ⟨⟨v, n, l, s, fl, d⟩, offs⟩ := x
  simp only at hv hn hl hs hf hcount hoffs ⊢
  subst hn
  refine ⟨?_, ?_, ?_⟩
  · unfold DatFile.to_bytes
    rw [if_neg (by simp only; omega), if_neg (by simp only; omega)]
  · exact read_encoded v offs.length l s fl d 0 0 0 offs hv (by omega) hl hs hf hoffs rfl
  · intro p q r
    exact read_encoded v offs.length l s fl d p q r offs hv (by omega) hl hs hf hoffs rfl

/-- Witness for C2 at the repository's own round-trip test value. -/
theorem dat_codec_roundtrip_witness :
    ((2 : Nat) < 2 ^ 32 ∧ (3 : Nat) = 3 ∧ (20 : Nat) < 2 ^ 32 ∧ (4 : Nat) < 2 ^ 32 ∧
        (2 : Nat) < 2 ^ 32 ∧ (3 : Nat) < 2 ^ 32 ∧
        ∀ o ∈ ([0, 12, 40] : List Nat), o < 2 ^ 32) ∧
      DatFile.read_from_bytes (u32be 2 ++ u32be 3 ++ u32be 20 ++ u32be 4 ++ u32be 2 ++
        [37] ++ [0, 0, 0] ++ (([0, 12, 40] : List Nat).map u32be).flatten) =
        .ok ⟨⟨2, 3, 20, 4, 2, 37⟩, [0, 12, 40]⟩ :=
  ⟨⟨by decide, rfl, by decide, by decide, by decide, by decide, by decide⟩,
    (dat_codec_roundtrip ⟨⟨2, 3, 20, 4, 2, 37⟩, [0, 12, 40]⟩ (by decide) rfl (by decide)
      (by decide) (by decide) (by decide) (by decide)).2.1⟩

/-- Every byte of a byte buffer read via `getD` is below 256. -/
theorem getD_byte_lt (bytes : List Nat) (hbytes : ∀ b ∈ bytes, b < 256) (i : Nat) :
    bytes.getD i 0 < 256 := by
  rw [List.getD_eq_getElem?_getD]
  cases hg : bytes[i]? with
  | none => simp
  | some b =>
    simp only [Option.getD_some]
    exact hbytes b (List.getElem?_mem hg)

/-- C4: decoding fails (with one of the codec's `DatValidationError`
messages) exactly when the buffer is shorter than the 24-byte header or
shorter than `24 + numstr * 4`; the overflow-checked arithmetic never
overflows for a byte buffer because `numstr < 2^32`; on every other
input decoding succeeds.  The model reads through total `getD` accesses,
so no access is out of bounds on any input. -/
theorem read_from_bytes_error_iff (bytes : List Nat) (hbytes : ∀ b ∈ bytes, b < 256) :
    ((∃ e, DatFile.read_from_bytes bytes = .error e) ↔
        bytes.length < 24 ∨
          bytes.length <
            24 + beU32 (bytes.getD 4 0) (bytes.getD 5 0) (bytes.getD 6 0)
              (bytes.getD 7 0) * 4) ∧
      (¬(bytes.length < 24 ∨
          bytes.length <
            24 + beU32 (bytes.getD 4 0) (bytes.getD 5 0) (bytes.getD 6 0)
              (bytes.getD 7 0) * 4) →
        ∃ d, DatFile.read_from_bytes bytes = .ok d) := by
  have h4 := getD_byte_lt bytes hbytes 4
  have h5 := getD_byte_lt bytes hbytes 5
  have h6 := getD_byte_lt bytes hbytes 6
  have h7 := getD_byte_lt bytes hbytes 7
  have hnum : beU32 (bytes.getD 4 0) (bytes.getD 5 0) (bytes.getD 6 0) (bytes.getD 7 0) <
      2 ^ 32 := by
    unfold beU32
    omega
  unfold DatFile.read_from_bytes
  simp only [HEADER_BYTES]
  by_cases h24 : bytes.length < 24
  · rw [if_pos h24]
    exact ⟨⟨fun _ => Or.inl h24, fun _ => ⟨_, rfl⟩⟩, fun hcon => absurd (Or.inl h24) hcon⟩
  · rw [if_neg h24]
    rw [show checked_mul (beU32 (bytes.getD 4 0) (bytes.getD 5 0) (bytes.getD 6 0)
        (bytes.getD 7 0)) 4 =
        some (beU32 (bytes.getD 4 0) (bytes.getD 5 0) (bytes.getD 6 0)
          (bytes.getD 7 0) * 4) from by
      unfold checked_mul; rw [if_pos (by omega)]]
    dsimp only
    rw [show checked_add 24 (beU32 (bytes.getD 4 0) (bytes.getD 5 0) (bytes.getD 6 0)
        (bytes.getD 7 0) * 4) =
        some (24 + beU32 (bytes.getD 4 0) (bytes.getD 5 0) (bytes.getD 6 0)
          (bytes.getD 7 0) * 4) from by
      unfold checked_add; rw [if_pos (by omega)]]
    dsimp only
    by_cases hexp : bytes.length <
        24 + beU32 (bytes.getD 4 0) (bytes.getD 5 0) (bytes.getD 6 0) (bytes.getD 7 0) * 4
    · rw [if_pos hexp]
      exact ⟨⟨fun _ => Or.inr hexp, fun _ => ⟨_, rfl⟩⟩,
        fun hcon => absurd (Or.inr hexp) hcon⟩
    · rw [if_neg hexp]
      refine ⟨⟨?_, ?_⟩, fun _ => ⟨_, rfl⟩⟩
      · rintro ⟨e, he⟩
        cases he
      · intro hcon
        exact absurd hcon (by omega)

/-- Witness for C4 on the 4-byte buffer `[0, 0, 0, 9]` (too short for a
header). -/
theorem read_from_bytes_error_iff_witness :
    (∀ b ∈ ([0, 0, 0, 9] : List Nat), b < 256) ∧
      (((∃ e, DatFile.read_from_bytes [0, 0, 0, 9] = .error e) ↔
          ([0, 0, 0, 9] : List Nat).length < 24 ∨
            ([0, 0, 0, 9] : List Nat).length <
              24 + beU32 (([0, 0, 0, 9] : List Nat).getD 4 0)
                (([0, 0, 0, 9] : List Nat).getD 5 0) (([0, 0, 0, 9] : List Nat).getD 6 0)
                (([0, 0, 0, 9] : List Nat).getD 7 0) * 4) ∧
        (¬(([0, 0, 0, 9] : List Nat).length < 24 ∨
            ([0, 0, 0, 9] : List Nat).length <
              24 + beU32 (([0, 0, 0, 9] : List Nat).getD 4 0)
                (([0, 0, 0, 9] : List Nat).getD 5 0) (([0, 0, 0, 9] : List Nat).getD 6 0)
                (([0, 0, 0, 9] : List Nat).getD 7 0) * 4) →
          ∃ d, DatFile.read_from_bytes [0, 0, 0, 9] = .ok d)) :=
  ⟨by decide, read_from_bytes_error_iff [0, 0, 0, 9] (by decide)⟩

/-! ## Lemmas: probability computation -/

theorem F64_le_zero_iff (x : F64) : F64.le x F64.zero ↔ x.m ≤ 0 := by
  unfold F64.le F64.zero
  have hp : (0 : ℤ) < 2 ^ (x.e - min x.e (0 : ℤ)).toNat := by positivity
  rw [show ((⟨0, 0⟩ : F64).m * 2 ^ ((⟨0, 0⟩ : F64).e - min x.e (⟨0, 0⟩ : F64).e).toNat) =
    (0 : ℤ) from by simp]
  constructor
  · intro h
    nlinarith
  · intro h
    exact mul_nonpos_iff.mpr (Or.inr ⟨h, by positivity⟩)

theorem roundPosRat_m_nonneg (a d : Nat) : 0 ≤ (roundPosRat a d).m := by
  unfold roundPosRat
  dsimp only
  split_ifs <;> simp

theorem roundRat_m_nonpos (n d : Int) (hn : n ≤ 0) (hd : 0 < d) :
    (roundRat n d).m ≤ 0 := by
  unfold roundRat
  split
  · exact le_refl 0
  · next hnz =>
    push_neg at hnz
    rw [if_neg ?_]
    · simp only [neg_nonpos]
      exact roundPosRat_m_nonneg _ _
    · intro hEq
      have : 0 < n := by rw [hEq]; exact hd
      omega

theorem roundDyadic_m_nonpos (N E : Int) (hN : N ≤ 0) : (roundDyadic N E).m ≤ 0 := by
  unfold roundDyadic
  split
  · exact roundRat_m_nonpos _ _ (by nlinarith [pow_pos (show (0:ℤ) < 2 by omega) E.toNat])
      (by omega)
  · exact roundRat_m_nonpos _ _ hN (by positivity)

theorem fadd_nonpos (x y : F64) (hx : F64.le x F64.zero) (hy : F64.le y F64.zero) :
    F64.le (F64.add x y) F64.zero := by
  rw [F64_le_zero_iff] at *
  unfold F64.add
  apply roundDyadic_m_nonpos
  have h1 : x.m * 2 ^ (x.e - min x.e y.e).toNat ≤ 0 :=
    mul_nonpos_iff.mpr (Or.inr ⟨hx, by positivity⟩)
  have h2 : y.m * 2 ^ (y.e - min x.e y.e).toNat ≤ 0 :=
    mul_nonpos_iff.mpr (Or.inr ⟨hy, by positivity⟩)
  omega

theorem fsum_nonpos (l : List F64) (h : ∀ p ∈ l, F64.le p F64.zero) :
    F64.le (fsum l) F64.zero := by
  have haux : ∀ (l' : List F64), (∀ p ∈ l', F64.le p F64.zero) →
      ∀ acc, F64.le acc F64.zero → F64.le (l'.foldl F64.add acc) F64.zero := by
    intro l'
    induction l' with
    | nil => intro _ acc hacc; exact hacc
    | cons p rest ih =>
      intro h' acc hacc
      exact ih (fun q hq => h' q (List.mem_cons_of_mem p hq)) (F64.add acc p)
        (fadd_nonpos acc p hacc (h' p (List.mem_cons_self p rest)))
  exact haux l h F64.zero (by rw [F64_le_zero_iff]; decide)

/-- C6: with two loaded sources of 3 and 2 candidates, no explicit
percentages and `equal_prob = false`, the computed probabilities are
exactly `60.0` and `40.0`; in general a source without an explicit
percent receives `remaining * (base_weight / total_base)` (clamped at
`0.0`) where `remaining = max(0, 100 - specified_total)` by definition;
the computation fails when the explicit percents sum to more than `100`
and when all resulting probabilities are non-positive. -/
theorem calculate_probabilities_spec :
    (∀ e1 e2 : LoadedSource, e1.explicit_percent = none → e2.explicit_percent = none →
      e1.candidate_indices.length = 3 → e2.candidate_indices.length = 2 →
      calculate_probabilities [e1, e2] false = .ok [F64.ofInt 60, F64.ofInt 40]) ∧
    (∀ (entries : List LoadedSource) (ep : Bool) (probs : List F64) (i : Nat)
      (hi : i < entries.length),
      calculate_probabilities entries ep = .ok probs →
      (entries[i]).explicit_percent = none →
      probs[i]? = some (F64.fmax
        (if F64.lt F64.zero (total_base entries ep) then
          F64.mul (remaining entries)
            (F64.div
              (if ep then F64.ofInt 1 else natToF64 (entries[i]).candidate_indices.length)
              (total_base entries ep))
        else F64.zero) F64.zero)) ∧
    (∀ (entries : List LoadedSource) (ep : Bool),
      F64.lt (F64.ofInt 100) (specified_total entries) →
      calculate_probabilities entries ep = .error "specified probability total exceeds 100%") ∧
    (∀ (entries : List LoadedSource) (ep : Bool),
      (∀ p ∈ probs_of entries ep, F64.le p F64.zero) →
      ∃ e, calculate_probabilities entries ep = .error e) := by
  refine ⟨?_, ?_, ?_, ?_⟩
  · intro e1 e2 h1 h2 hl1 hl2
    have hst : specified_total [e1, e2] = F64.zero := by
      simp [specified_total, List.filterMap_cons, h1, h2, fsum]
    have hbw : base_weights [e1, e2] false = [natToF64 3, natToF64 2] := by
      simp [base_weights, h1, h2, hl1, hl2]
    have htb : total_base [e1, e2] false = F64.ofInt 5 := by
      rw [total_base, hbw]
      decide
    have hrem : remaining [e1, e2] = F64.ofInt 100 := by
      rw [remaining, hst]
      decide
    have hp : probs_of [e1, e2] false = [F64.ofInt 60, F64.ofInt 40] := by
      unfold probs_of
      rw [hbw, htb, hrem]
      simp [h1, h2]
      decide
    unfold calculate_probabilities
    rw [hst, hp]
    rfl
  · intro entries ep probs i hi hok hnone
    have hprobs : probs = probs_of entries ep := by
      unfold calculate_probabilities at hok
      split_ifs at hok
      injection hok with h
      exact h.symm
    subst hprobs
    unfold probs_of
    rw [List.getElem?_map]
    have hz : (entries.zip (base_weights entries ep))[i]? =
        some (entries[i],
          if ep then F64.ofInt 1 else natToF64 (entries[i]).candidate_indices.length) := by
      rw [List.getElem?_zip_eq_some]
      constructor
      · exact List.getElem?_eq_getElem hi
      · unfold base_weights
        rw [List.getElem?_map, List.getElem?_eq_getElem hi]
        simp [hnone]
    rw [hz]
    simp only [Option.map_some']
    simp [hnone]
  · intro entries ep hgt
    cases entries with
    | nil => exact absurd hgt (by decide)
    | cons e rest =>
      unfold calculate_probabilities
      rw [if_neg (by simp)]
      rw [show F64.add (F64.ofInt 100) epsF64 = F64.ofInt 100 from by decide]
      rw [if_pos hgt]
  · intro entries ep hall
    unfold calculate_probabilities
    by_cases h1 : entries.isEmpty
    · rw [if_pos h1]
      exact ⟨_, rfl⟩
    · rw [if_neg h1]
      by_cases h2 : F64.lt (F64.add (F64.ofInt 100) epsF64) (specified_total entries)
      · rw [if_pos h2]
        exact ⟨_, rfl⟩
      · rw [if_neg h2, if_pos (fsum_nonpos _ hall)]
        exact ⟨_, rfl⟩

/-- Witness for C6: two concrete sources with 3 and 2 candidates. -/
theorem calculate_probabilities_spec_witness :
    ((⟨default, none, [0, 1, 2]⟩ : LoadedSource).explicit_percent = none ∧
      (⟨default, none, [0, 1]⟩ : LoadedSource).explicit_percent = none ∧
      (⟨default, none, [0, 1, 2]⟩ : LoadedSource).candidate_indices.length = 3 ∧
      (⟨default, none, [0, 1]⟩ : LoadedSource).candidate_indices.length = 2) ∧
    calculate_probabilities
        [⟨default, none, [0, 1, 2]⟩, ⟨default, none, [0, 1]⟩] false =
      .ok [F64.ofInt 60, F64.ofInt 40] :=
  ⟨⟨rfl, rfl, rfl, rfl⟩,
    calculate_probabilities_spec.1 ⟨default, none, [0, 1, 2]⟩ ⟨default, none, [0, 1]⟩
      rfl rfl rfl rfl⟩

/-! ## Lemmas: the weighted draw -/

/-- The selection loop is the first index whose probability exceeds the
running marker, with the initial `chosen_idx` as fallback. -/
theorem chooseIndex_eq_firstChoice :
    ∀ (probs : List F64) (marker : F64) (idx fallback : Nat),
      chooseIndex probs marker idx fallback =
        ((firstChoice probs marker).map (· + idx)).getD fallback := by
  intro probs
  induction probs with
  | nil => intro marker idx fallback; rfl
  | cons p rest ih =>
    intro marker idx fallback
    unfold chooseIndex firstChoice
    split
    · simp
    · rw [ih]
      cases firstChoice rest (F64.sub marker p) <;> simp
      omega

theorem chooseIndex_zero (probs : List F64) (marker : F64) (fallback : Nat) :
    chooseIndex probs marker 0 fallback = (firstChoice probs marker).getD fallback := by
  rw [chooseIndex_eq_firstChoice]
  cases firstChoice probs marker <;> simp

/-- C5: the draw fails on a length mismatch and on a non-positive
probability sum; otherwise the marker is `next_unit_f64() * total`, the
chosen source is the first whose probability exceeds the running marker
(each passed probability being subtracted from it), explicitly falling
back to the last source when none does (`firstChoice = none`), and the
record is the candidate at `next_index(candidate_count)` — the second
draw — within the chosen source's candidate list. -/
theorem select_random_fortune_spec :
    (∀ (entries : List LoadedSource) (probs : List F64) (rng : FortuneRng),
      entries.length ≠ probs.length →
      select_random_fortune entries probs rng =
        .error "entries/probabilities length mismatch") ∧
    (∀ (entries : List LoadedSource) (probs : List F64) (rng : FortuneRng),
      entries.length = probs.length → F64.le (fsum probs) F64.zero →
      select_random_fortune entries probs rng = .error "total probability is zero") ∧
    (∀ (entries : List LoadedSource) (probs : List F64) (rng : FortuneRng)
      (c : Nat) (chosen : LoadedSource) (pr : Nat × FortuneRng) (ri : Nat)
      (text : List Nat),
      entries.length = probs.length →
      ¬F64.le (fsum probs) F64.zero →
      c = (firstChoice probs (F64.mul rng.next_unit_f64.1 (fsum probs))).getD
        (entries.length - 1) →
      chosen = entries.getD c default →
      pr = rng.next_unit_f64.2.next_index chosen.candidate_indices.length →
      ri = chosen.candidate_indices.getD pr.1 0 →
      chosen.db.record_bytes ri = .ok text →
      select_random_fortune entries probs rng = .ok (⟨c, ri, text⟩, pr.2)) := by
  refine ⟨?_, ?_, ?_⟩
  · intro entries probs rng hne
    unfold select_random_fortune
    rw [if_pos hne]
  · intro entries probs rng hlen hle
    unfold select_random_fortune
    rw [if_neg (fun hne => hne hlen)]
    dsimp only
    rw [if_pos hle]
  · intro entries probs rng c chosen pr ri text hlen hpos hc hchosen hpr hri hrb
    subst hc hchosen hpr hri
    unfold select_random_fortune
    rw [if_neg (fun hne => hne hlen)]
    dsimp only
    rw [if_neg hpos]
    rw [chooseIndex_zero]
    rw [hrb]

/-- Witness for C5 at a concrete two-source state with probabilities
`[60.0, 40.0]` and a hard-coded zero draw. -/
theorem select_random_fortune_spec_witness :
    (([⟨⟨⟨⟨2, 3, 2, 2, 0, 37⟩, [0, 4, 8]⟩,
          [120, 10, 37, 10, 121, 10, 37, 10, 122, 10]⟩, none, [0, 1, 2]⟩,
        ⟨⟨⟨⟨2, 2, 2, 2, 0, 37⟩, [0, 4]⟩, [117, 10, 37, 10, 118, 10]⟩, none,
          [0, 1]⟩] : List LoadedSource).length = ([F64.ofInt 60, F64.ofInt 40] : List F64).length ∧
      select_random_fortune
        [⟨⟨⟨⟨2, 3, 2, 2, 0, 37⟩, [0, 4, 8]⟩,
            [120, 10, 37, 10, 121, 10, 37, 10, 122, 10]⟩, none, [0, 1, 2]⟩,
          ⟨⟨⟨⟨2, 2, 2, 2, 0, 37⟩, [0, 4]⟩, [117, 10, 37, 10, 118, 10]⟩, none, [0, 1]⟩]
        [F64.ofInt 60, F64.ofInt 40] ⟨.hardCoded [0] 0⟩ =
        .ok (⟨0, 0, [120, 10]⟩, ⟨.hardCoded [0] 2⟩)) :=
  ⟨rfl,
    select_random_fortune_spec.2.2
      [⟨⟨⟨⟨2, 3, 2, 2, 0, 37⟩, [0, 4, 8]⟩,
          [120, 10, 37, 10, 121, 10, 37, 10, 122, 10]⟩, none, [0, 1, 2]⟩,
        ⟨⟨⟨⟨2, 2, 2, 2, 0, 37⟩, [0, 4]⟩, [117, 10, 37, 10, 118, 10]⟩, none, [0, 1]⟩]
      [F64.ofInt 60, F64.ofInt 40] ⟨.hardCoded [0] 0⟩ 0
      ⟨⟨⟨⟨2, 3, 2, 2, 0, 37⟩, [0, 4, 8]⟩,
        [120, 10, 37, 10, 121, 10, 37, 10, 122, 10]⟩, none, [0, 1, 2]⟩
      (0, ⟨.hardCoded [0] 2⟩) 0 [120, 10] rfl (by decide) (by decide) rfl rfl rfl rfl⟩

/-! ## Lemmas: the builder on generated corpora -/

theorem posOfNL_append_no_nl (r tail : List Nat) (h : ∀ b ∈ r, b ≠ 10) :
    posOfNL (r ++ 10 :: tail) = some r.length := by
  induction r with
  | nil => simp [posOfNL]
  | cons b rest ih =>
    have hb : b ≠ 10 := h b (List.mem_cons_self b rest)
    rw [List.cons_append, posOfNL, if_neg hb,
      ih (fun x hx => h x (List.mem_cons_of_mem b hx))]
    rfl

theorem getD_mem_of_lt (l : List Nat) (i : Nat) (h : i < l.length) :
    l.getD i 0 ∈ l := by
  rw [List.getD_eq_getElem?_getD, List.getElem?_eq_getElem h]
  exact List.getElem_mem h

theorem getD_append_left (A c : List Nat) (i : Nat) (h : i < A.length) :
    (A ++ c).getD i 0 = A.getD i 0 := by
  simp only [List.getD_eq_getElem?_getD]
  rw [List.getElem?_append, if_pos h]

/-- The first line of `r ++ "\n" ++ tail` ends right after `r` when `r`
contains no newline. -/
theorem lineEnd_no_nl (r tail : List Nat) (h : ∀ b ∈ r, b ≠ 10) :
    lineEnd (r ++ 10 :: tail) 0 (r ++ 10 :: tail).length = r.length := by
  unfold lineEnd
  rw [List.drop_zero, Nat.sub_zero, List.take_length, posOfNL_append_no_nl r tail h]
  simp

theorem joinRecords_length_pos (delim : Nat) :
    ∀ records : List (List Nat), records ≠ [] → 0 < (joinRecords delim records).length := by
  intro records hne
  match records with
  | [] => exact absurd rfl hne
  | [r] => simp [joinRecords]
  | r :: r2 :: rest => simp [joinRecords]

theorem expectedSpans_length :
    ∀ (records : List (List Nat)) (base : Nat),
      (expectedSpans base records).length = records.length := by
  intro records
  induction records with
  | nil => intro base; rfl
  | cons r rest ih =>
    intro base
    match rest, ih with
    | [], _ => rfl
    | r2 :: rest', ih =>
      show (expectedSpans (base + r.length + 3) (r2 :: rest')).length + 1 =
        (r2 :: rest').length + 1
      rw [ih (base + r.length + 3)]

theorem expectedSpans_shift (k : Nat) :
    ∀ (records : List (List Nat)) (base : Nat),
      expectedSpans (k + base) records =
        (expectedSpans base records).map (fun s => ⟨k + s.start, k + s.stop⟩) := by
  intro records
  induction records with
  | nil => intro base; rfl
  | cons r rest ih =>
    intro base
    match rest, ih with
    | [], _ =>
      show [(⟨k + base, k + base + r.length + 1⟩ : RecordSpan)] =
        [(⟨k + base, k + (base + r.length + 1)⟩ : RecordSpan)]
      rw [show k + base + r.length + 1 = k + (base + r.length + 1) from by omega]
    | r2 :: rest', ih =>
      show (⟨k + base, k + base + r.length + 1⟩ : RecordSpan) ::
          expectedSpans (k + base + r.length + 3) (r2 :: rest') =
        (⟨k + base, k + (base + r.length + 1)⟩ : RecordSpan) ::
          (expectedSpans (base + r.length + 3) (r2 :: rest')).map
            (fun s => ⟨k + s.start, k + s.stop⟩)
      rw [show k + base + r.length + 1 = k + (base + r.length + 1) from by omega,
        show k + base + r.length + 3 = k + (base + r.length + 3) from by omega,
        ih (base + r.length + 3)]

theorem expectedSpans_start_bounds :
    ∀ (records : List (List Nat)) (base : Nat),
      (∀ s ∈ expectedSpans base records, base ≤ s.start) ∧
        List.Pairwise (· < ·) ((expectedSpans base records).map (·.start)) := by
  intro records
  induction records with
  | nil => intro base; exact ⟨by simp [expectedSpans], by simp [expectedSpans]⟩
  | cons r rest ih =>
    intro base
    match rest, ih with
    | [], _ =>
      refine ⟨?_, by simp [expectedSpans]⟩
      intro s hs
      simp only [expectedSpans, List.mem_singleton] at hs
      subst hs
      exact le_refl base
    | r2 :: rest', ih =>
      rcases ih (base + r.length + 3) with ⟨ihle, ihpw⟩
      constructor
      · intro s hs
        rcases List.mem_cons.mp hs with hs | hs
        · subst hs; exact le_refl base
        · have := ihle s hs; omega
      · show List.Pairwise (· < ·)
          (base :: (expectedSpans (base + r.length + 3) (r2 :: rest')).map (·.start))
        refine List.pairwise_cons.mpr ⟨?_, ihpw⟩
        intro a ha
        rcases List.mem_map.mp ha with ⟨s, hs, rfl⟩
        have := ihle s hs
        omega

/-- The line scan is position-independent: scanning `A ++ S` from an
offset inside `S` mirrors scanning `S`. -/
theorem lineEnd_shift (A S : List Nat) (c : Nat) :
    lineEnd (A ++ S) (A.length + c) (A ++ S).length = A.length + lineEnd S c S.length := by
  unfold lineEnd
  have hdrop : (A ++ S).drop (A.length + c) = S.drop c := List.drop_append c
  have htake : (A ++ S).length - (A.length + c) = S.length - c := by
    rw [List.length_append]
    omega
  rw [hdrop, htake]
  cases hp : posOfNL ((S.drop c).take (S.length - c)) with
  | some rel =>
    simp only [List.length_append]
    omega
  | none => simp only [List.length_append]

theorem contentEnd_shift (A S : List Nat) (c le : Nat) :
    contentEnd (A ++ S) (A.length + c) (A.length + le) = A.length + contentEnd S c le := by
  unfold contentEnd
  by_cases hcl : c < le
  · have hidx : A.length + le - 1 = A.length + (le - 1) := by omega
    by_cases h13 : S.getD (le - 1) 0 = 13
    · rw [if_pos ⟨by omega, by rw [hidx, getD_append_shift]; exact h13⟩,
        if_pos ⟨hcl, h13⟩]
      omega
    · rw [if_neg ?_, if_neg ?_]
      · exact fun h => h13 h.2
      · intro h
        rw [hidx, getD_append_shift] at h
        exact h13 h.2
  · rw [if_neg ?_, if_neg ?_]
    · exact fun h => hcl h.1
    · intro h
      exact hcl (by omega)

/-- Scanning an appended buffer from a cursor past the prefix produces
the suffix's spans, shifted by the prefix length. -/
theorem parse_from_shift (A S : List Nat) (delim : Nat) (ae : Bool) :
    ∀ (fuel cursor start : Nat),
      parse_record_spans_from (A ++ S) delim ae fuel (A.length + cursor) (A.length + start) =
        (parse_record_spans_from S delim ae fuel cursor start).map
          (fun s => ⟨A.length + s.start, A.length + s.stop⟩) := by
  intro fuel
  induction fuel with
  | zero =>
    intro cursor start
    show (if ae || decide (A.length + start < (A ++ S).length) then
        [(⟨A.length + start, (A ++ S).length⟩ : RecordSpan)] else []) = _
    rw [show parse_record_spans_from S delim ae 0 cursor start =
      (if ae || decide (start < S.length) then [(⟨start, S.length⟩ : RecordSpan)] else [])
      from rfl]
    rw [List.length_append,
      show decide (A.length + start < A.length + S.length) = decide (start < S.length) from by
        rw [decide_eq_decide]; omega]
    cases ae <;> by_cases hs : start < S.length <;>
      simp [hs, List.length_append]
  | succ f ih =>
    intro cursor start
    by_cases hc : cursor < S.length
    · have hc' : A.length + cursor < (A ++ S).length := by
        rw [List.length_append]; omega
      have hle := lineEnd_shift A S cursor
      have hceq := contentEnd_shift A S cursor (lineEnd S cursor S.length)
      have hbyte : (A ++ S).getD (A.length + cursor) 0 = S.getD cursor 0 :=
        getD_append_shift A S cursor
      have hnext :
          (if A.length + lineEnd S cursor S.length < (A ++ S).length then
            A.length + lineEnd S cursor S.length + 1
          else A.length + lineEnd S cursor S.length) =
          A.length + (if lineEnd S cursor S.length < S.length then
            lineEnd S cursor S.length + 1 else lineEnd S cursor S.length) := by
        rw [List.length_append]
        by_cases h : lineEnd S cursor S.length < S.length
        · rw [if_pos (by omega), if_pos h]
          omega
        · rw [if_neg (by omega), if_neg h]
      simp only [parse_record_spans_from, if_pos hc, if_pos hc']
      rw [hle, hceq, hbyte, hnext]
      by_cases htest : contentEnd S cursor (lineEnd S cursor S.length) - cursor = 1 ∧
          S.getD cursor 0 = delim
      · rw [if_pos ⟨by omega, htest.2⟩, if_pos htest]
        rw [ih]
        rw [List.map_append]
        congr 1
        rw [show decide (A.length + start < A.length + cursor) = decide (start < cursor)
          from by rw [decide_eq_decide]; omega]
        cases ae <;> by_cases hsc : start < cursor <;> simp [hsc]
      · rw [if_neg (fun h => htest ⟨by omega, h.2⟩), if_neg htest]
        exact ih _ _
    · have hc' : ¬A.length + cursor < (A ++ S).length := by
        rw [List.length_append]; omega
      simp only [parse_record_spans_from, if_neg hc, if_neg hc']
      rw [List.length_append,
        show decide (A.length + start < A.length + S.length) = decide (start < S.length)
          from by rw [decide_eq_decide]; omega]
      cases ae <;> by_cases hs : start < S.length <;>
        simp [hs, List.length_append]

/-- The build-side segmenter on a joined corpus of printable records
(no newline, carriage return, or delimiter byte inside a record)
recovers exactly one span per record, at the expected offsets. -/
theorem parse_join_aux (delim : Nat) (hd10 : delim ≠ 10) (hd13 : delim ≠ 13) :
    ∀ records : List (List Nat), records ≠ [] →
      (∀ r ∈ records, r ≠ [] ∧ ∀ b ∈ r, b ≠ 10 ∧ b ≠ 13 ∧ b ≠ delim) →
      ∀ fuel, (joinRecords delim records).length < fuel →
        parse_record_spans_from (joinRecords delim records) delim false fuel 0 0 =
          expectedSpans 0 records := by
  intro records
  induction records with
  | nil =>
    intro h
    exact absurd rfl h
  | cons r rest ih =>
    intro _ hprint fuel hfuel
    obtain ⟨hrne, hrbytes⟩ := hprint r (List.mem_cons_self r rest)
    have hno10 : ∀ b ∈ r, b ≠ 10 := fun b hb => (hrbytes b hb).1
    have hrpos : 0 < r.length := List.length_pos.mpr hrne
    have hbyte0 : ∀ tail : List Nat, (r ++ tail).getD 0 0 ≠ delim := by
      intro tail
      rw [getD_append_left r tail 0 hrpos]
      exact (hrbytes _ (getD_mem_of_lt r 0 hrpos)).2.2
    cases rest with
    | nil =>
      rw [show joinRecords delim [r] = r ++ 10 :: [] from rfl] at hfuel ⊢
      have hlen : (r ++ 10 :: []).length = r.length + 1 := by simp
      cases fuel with
      | zero => exact absurd hfuel (by omega)
      | succ f =>
        simp only [parse_record_spans_from]
        rw [if_pos (by omega)]
        rw [lineEnd_no_nl r [] hno10]
        rw [if_neg (fun htest => hbyte0 (10 :: []) htest.2)]
        rw [if_pos (by omega)]
        cases f with
        | zero => exact absurd hfuel (by omega)
        | succ f2 =>
          simp only [parse_record_spans_from]
          rw [if_neg (by omega)]
          rw [if_pos (by simp)]
          show [(⟨0, (r ++ 10 :: []).length⟩ : RecordSpan)] = [⟨0, 0 + r.length + 1⟩]
          rw [hlen]
          simp
    | cons r2 rest' =>
      have hrest : ∀ x ∈ r2 :: rest', x ≠ [] ∧ ∀ b ∈ x, b ≠ 10 ∧ b ≠ 13 ∧ b ≠ delim :=
        fun x hx => hprint x (List.mem_cons_of_mem r hx)
      have hjoin : joinRecords delim (r :: r2 :: rest') =
          r ++ 10 :: delim :: 10 :: joinRecords delim (r2 :: rest') := by
        simp [joinRecords]
      rw [hjoin] at hfuel ⊢
      have hS'pos : 0 < (joinRecords delim (r2 :: rest')).length :=
        joinRecords_length_pos delim (r2 :: rest') (by simp)
      have hlen : (r ++ 10 :: delim :: 10 :: joinRecords delim (r2 :: rest')).length =
          r.length + 3 + (joinRecords delim (r2 :: rest')).length := by
        simp only [List.length_append, List.length_cons]
        omega
      cases fuel with
      | zero => exact absurd hfuel (by omega)
      | succ f =>
        simp only [parse_record_spans_from]
        rw [if_pos (by omega)]
        rw [lineEnd_no_nl r (delim :: 10 :: joinRecords delim (r2 :: rest')) hno10]
        rw [if_neg (fun htest =>
          hbyte0 (10 :: delim :: 10 :: joinRecords delim (r2 :: rest')) htest.2)]
        rw [if_pos (by omega)]
        cases f with
        | zero => exact absurd hfuel (by omega)
        | succ f2 =>
          have hle2 : lineEnd (r ++ 10 :: delim :: 10 :: joinRecords delim (r2 :: rest'))
              (r.length + 1)
              (r ++ 10 :: delim :: 10 :: joinRecords delim (r2 :: rest')).length =
              r.length + 2 := by
            refine lineEnd_eq_of _ _ _ _ (by omega) (by omega) (by omega) ?_ ?_
            · exact (getD_append_shift r (10 :: delim :: 10 ::
                joinRecords delim (r2 :: rest')) 2).trans rfl
            · intro j hj1 hj2
              have hj : j = r.length + 1 := by omega
              subst hj
              rw [getD_append_shift r (10 :: delim :: 10 ::
                joinRecords delim (r2 :: rest')) 1]
              exact hd10
          have hce2 : contentEnd (r ++ 10 :: delim :: 10 ::
              joinRecords delim (r2 :: rest')) (r.length + 1) (r.length + 2) =
              r.length + 2 := by
            unfold contentEnd
            rw [if_neg ?_]
            rintro ⟨_, h13⟩
            rw [show r.length + 2 - 1 = r.length + 1 from by omega,
              getD_append_shift r (10 :: delim :: 10 ::
                joinRecords delim (r2 :: rest')) 1] at h13
            exact hd13 h13
          simp only [parse_record_spans_from]
          rw [if_pos (by omega)]
          rw [hle2, hce2]
          rw [if_pos ⟨by omega,
            (getD_append_shift r (10 :: delim :: 10 ::
              joinRecords delim (r2 :: rest')) 1).trans rfl⟩]
          rw [if_pos (by simp)]
          rw [if_pos (by omega)]
          rw [show (r ++ 10 :: delim :: 10 :: joinRecords delim (r2 :: rest')) =
            (r ++ [10, delim, 10]) ++ joinRecords delim (r2 :: rest') from by
            rw [List.append_assoc]; simp]
          rw [show r.length + 2 + 1 = (r ++ [10, delim, 10]).length + 0 from by simp]
          rw [parse_from_shift]
          rw [ih (by simp) hrest f2 (by
            have : (joinRecords delim (r2 :: rest')).length ≤ f2 := by omega
            omega)]
          rw [show ((r ++ [10, delim, 10]) : List Nat).length = r.length + 3 from by simp]
          rw [← expectedSpans_shift (r.length + 3) (r2 :: rest') 0]
          show (⟨0, r.length + 1⟩ : RecordSpan) :: expectedSpans (r.length + 3 + 0)
              (r2 :: rest') =
            (⟨0, 0 + r.length + 1⟩ : RecordSpan) :: expectedSpans (0 + r.length + 3)
              (r2 :: rest')
          rw [show r.length + 3 + 0 = 0 + r.length + 3 from by omega,
            show r.length + 1 = 0 + r.length + 1 from by omega]

theorem expectedSpans_start_le :
    ∀ (records : List (List Nat)) (base : Nat), (∀ r ∈ records, r.length ≤ 50) →
      ∀ s ∈ expectedSpans base records, s.start ≤ base + 53 * records.length := by
  intro records
  induction records with
  | nil => intro base _ s hs; simp [expectedSpans] at hs
  | cons r rest ih =>
    intro base hlen s hs
    match rest, ih, hs with
    | [], _, hs =>
      simp only [expectedSpans, List.mem_singleton] at hs
      subst hs
      simp
    | r2 :: rest', ih, hs =>
      rcases List.mem_cons.mp hs with hs | hs
      · subst hs
        simp only
        omega
      · have hr : r.length ≤ 50 := hlen r (List.mem_cons_self r _)
        have := ih (base + r.length + 3)
          (fun x hx => hlen x (List.mem_cons_of_mem r hx)) s hs
        simp only [List.length_cons] at *
        omega

/-- C9: building an index from 1–30 printable-text records joined by
delimiter lines (generator charset: no newline, carriage return or
delimiter byte inside a record, 1–50 bytes each), with neither ordering
nor randomizing requested, produces exactly one offset per record, and
the offsets are strictly increasing. -/
theorem build_one_offset_per_record (delim : Nat) (records : List (List Nat))
    (rng : FortuneRng) (hd10 : delim ≠ 10) (hd13 : delim ≠ 13)
    (h1 : 1 ≤ records.length) (h30 : records.length ≤ 30)
    (hrec : ∀ r ∈ records, r ≠ [] ∧ r.length ≤ 50 ∧
      ∀ b ∈ r, b ≠ 10 ∧ b ≠ 13 ∧ b ≠ delim) :
    ∃ dat stats,
      build_dat_from_text (joinRecords delim records) ⟨delim, false, false, false⟩ rng =
          .ok (dat, stats) ∧
        dat.offsets.length = records.length ∧ List.Pairwise (· < ·) dat.offsets := by
  have hne : records ≠ [] := by
    intro h
    rw [h] at h1
    simp at h1
  have hprint : ∀ r ∈ records, r ≠ [] ∧ ∀ b ∈ r, b ≠ 10 ∧ b ≠ 13 ∧ b ≠ delim :=
    fun r hr => ⟨(hrec r hr).1, (hrec r hr).2.2⟩
  have hspans : parse_record_spans (joinRecords delim records) delim false =
      expectedSpans 0 records :=
    parse_join_aux delim hd10 hd13 records hne hprint _ (by omega)
  have hnonempty : ¬(expectedSpans 0 records).isEmpty = true := by
    intro hemp
    rw [List.isEmpty_iff] at hemp
    have := expectedSpans_length records 0
    rw [hemp] at this
    simp at this
    omega
  unfold build_dat_from_text
  dsimp only
  simp only [Bool.and_self, Bool.false_eq_true, if_false]
  rw [hspans]
  rw [if_neg hnonempty]
  rw [if_neg ?_]
  · refine ⟨_, _, rfl, ?_, ?_⟩
    · rw [List.length_map, expectedSpans_length]
    · exact (expectedSpans_start_bounds records 0).2
  · intro hover
    rw [List.any_eq_true] at hover
    rcases hover with ⟨s, hs, hdec⟩
    have hlt : 2 ^ 32 - 1 < s.start := of_decide_eq_true hdec
    have hle := expectedSpans_start_le records 0 (fun r hr => (hrec r hr).2.1) s hs
    have : 53 * records.length ≤ 53 * 30 := by omega
    omega

/-- Witness for C9 on two one-byte records with the default delimiter. -/
theorem build_one_offset_per_record_witness :
    ((37 : Nat) ≠ 10 ∧ (37 : Nat) ≠ 13 ∧
      1 ≤ ([[97], [98]] : List (List Nat)).length ∧
      ([[97], [98]] : List (List Nat)).length ≤ 30 ∧
      ∀ r ∈ ([[97], [98]] : List (List Nat)), r ≠ [] ∧ r.length ≤ 50 ∧
        ∀ b ∈ r, b ≠ 10 ∧ b ≠ 13 ∧ b ≠ 37) ∧
      ∃ dat stats,
        build_dat_from_text (joinRecords 37 [[97], [98]]) ⟨37, false, false, false⟩
            ⟨.hardCoded [0] 0⟩ = .ok (dat, stats) ∧
          dat.offsets.length = ([[97], [98]] : List (List Nat)).length ∧
          List.Pairwise (· < ·) dat.offsets :=
  ⟨⟨by decide, by decide, by decide, by decide, by decide⟩,
    build_one_offset_per_record 37 [[97], [98]] ⟨.hardCoded [0] 0⟩ (by decide) (by decide)
      (by decide) (by decide) (by decide)⟩

end Rustune
